import Mathlib

/-!
Verification development for `betterdetex.py`, a LaTeX-stripping tool.

The Python source is a single transformation function `detex` — a fixed chain of
`re.sub` pattern substitutions over a string — plus a file-iterating `main`
(which prints a length-ratio warning) and a chapter-sorting helper
`_sort_chapters`.

We embed the program shallowly over `List Char`:

* each `re.sub(pattern, repl, text)` call becomes an executable scanner built
  from the combinator `scanAux`, which walks the text left to right, and at
  each position either fires a "step" function (one match attempt of the
  pattern anchored at that position, returning the replacement text together
  with the remainder after the match) and continues after the match — exactly
  the non-overlapping leftmost semantics of `re.sub` — or keeps the current
  character and moves one position to the right;
* the step functions mirror the concrete regexes of the source, including
  non-greedy (`.*?`) first-occurrence search, greedy (`.*`) last-occurrence
  search with lookahead, optional groups with their backtracking order,
  `re.DOTALL` (whether `.` may cross a newline) and `re.IGNORECASE`
  (ASCII case folding, which is what the source's inputs exercise);
* `main`'s warning logic and `_sort_chapters` (including Python's semantics of
  mutating a list while iterating over it by index) are modelled directly.
-/

/-- ASCII lowercase letter test (`[a-z]`). -/
def isLowerAlpha (c : Char) : Bool := 97 ≤ c.toNat && c.toNat ≤ 122

/-- ASCII uppercase letter test (`[A-Z]`). -/
def isUpperAlpha (c : Char) : Bool := 65 ≤ c.toNat && c.toNat ≤ 90

/-- ASCII letter test: `[a-z]` under `re.IGNORECASE`. -/
def isAsciiLetter (c : Char) : Bool := isLowerAlpha c || isUpperAlpha c

/-- The uppercase-to-lowercase ASCII letter table. -/
def upperLowerTable : List (Char × Char) :=
  [('A','a'),('B','b'),('C','c'),('D','d'),('E','e'),('F','f'),('G','g'),
   ('H','h'),('I','i'),('J','j'),('K','k'),('L','l'),('M','m'),('N','n'),
   ('O','o'),('P','p'),('Q','q'),('R','r'),('S','s'),('T','t'),('U','u'),
   ('V','v'),('W','w'),('X','x'),('Y','y'),('Z','z')]

/-- ASCII case folding, as used to model `re.IGNORECASE`: uppercase ASCII
letters map to their lowercase forms, all other characters are unchanged. -/
def lowerChar (c : Char) : Char :=
  match upperLowerTable.find? (fun p => p.1 == c) with
  | some p => p.2
  | none => c

/-- Strip an exact literal from the front of a list (case-sensitive). -/
def stripLit : List Char → List Char → Option (List Char)
  | [], u => some u
  | _ :: _, [] => none
  | p :: ps, c :: cs => if p = c then stripLit ps cs else none

/-- Strip a literal from the front of a list, comparing ASCII-case-insensitively. -/
def stripCI : List Char → List Char → Option (List Char)
  | [], u => some u
  | _ :: _, [] => none
  | p :: ps, c :: cs => if lowerChar p = lowerChar c then stripCI ps cs else none

/-- Split off the maximal run of ASCII letters (the greedy `[a-z]+` with
`re.IGNORECASE`): returns the run and the remainder. -/
def takeLetters : List Char → List Char × List Char
  | [] => ([], [])
  | c :: r =>
    if isAsciiLetter c then
      let p := takeLetters r
      (c :: p.1, p.2)
    else ([], c :: r)

/-- Non-greedy `.*?d` under `re.DOTALL`: split at the first occurrence of the
character `d`, returning the text before it and the remainder after it. -/
def splitBeforeChar (d : Char) : List Char → Option (List Char × List Char)
  | [] => none
  | c :: r =>
    if c = d then some ([], r)
    else (splitBeforeChar d r).map (fun p => (c :: p.1, p.2))

/-- Non-greedy `.*?d` without `re.DOTALL`: split at the first occurrence of `d`
before any newline; fails if a newline (or the end) comes first. -/
def splitBeforeCharNoNL (d : Char) : List Char → Option (List Char × List Char)
  | [] => none
  | c :: r =>
    if c = d then some ([], r)
    else if c = '\n' then none
    else (splitBeforeCharNoNL d r).map (fun p => (c :: p.1, p.2))

/-- Non-greedy `.*?pat` under `re.DOTALL` for a literal `pat`: the remainder
after the first occurrence of the literal. -/
def findSubRest (pat : List Char) : List Char → Option (List Char)
  | [] => none
  | c :: r =>
    match stripLit pat (c :: r) with
    | some rest => some rest
    | none => findSubRest pat r

/-- For `%.*`: skip to (and keep) the terminating newline of the current line. -/
def afterLine : List Char → List Char
  | [] => []
  | c :: r => if c = '\n' then c :: r else afterLine r

/-- The generic `re.sub` scanner.  `step u` attempts one anchored match of the
pattern at the front of `u`; on success it yields the replacement text and the
remainder of the input after the matched span.  `scanAux` walks the text left
to right, firing `step` at each position, emitting replacements, and resuming
after each match; unmatched characters are kept.  The fuel argument (always
instantiated with the text length, which every match strictly decreases)
makes the recursion structural. -/
def scanAux (step : List Char → Option (List Char × List Char)) :
    Nat → List Char → List Char
  | 0, t => t
  | _ + 1, [] => []
  | fuel + 1, c :: rest =>
    match step (c :: rest) with
    | some p => p.1 ++ scanAux step fuel p.2
    | none => c :: scanAux step fuel rest

/-- One `re.sub(pattern, repl, text)` call, for the anchored matcher `step`. -/
def reSub (step : List Char → Option (List Char × List Char)) (t : List Char) :
    List Char :=
  scanAux step t.length t

/-- Anchored matcher for `re.sub("%.*", "", text)`: a comment marker starts a
match that extends to the end of the line (the newline itself is kept and
rescanned, as `.` does not cross lines). -/
def stepComment (u : List Char) : Option (List Char × List Char) :=
  match u with
  | [] => none
  | c :: r => if c = '%' then some ([], afterLine r) else none

/-- Anchored matcher for `re.sub(r"(\$)|(\|\()|(\|\))", "", text)`. -/
def stepSymbols (u : List Char) : Option (List Char × List Char) :=
  match u with
  | [] => none
  | c :: r =>
    if c = '$' then some ([], r)
    else if c = '|' then
      match r with
      | [] => none
      | d :: r2 => if d = '(' || d = ')' then some ([], r2) else none
    else none

/-- Literal `\author{`. -/
def authorLit : List Char := '\\' :: ("author").toList ++ ['{']

/-- Literal `\affiliation{`. -/
def affilLit : List Char := '\\' :: ("affiliation").toList ++ ['{']

/-- Backtracking options, in engine order, for one iteration of the group
`(\\affiliation\{.*?\}.*?)` of the author pattern against `u`: each option is
a number of characters the iteration may consume.  The first lazy `.*?` stops
at each `}` (in ascending order); for each such stop the trailing lazy `.*?`
extends by `0, 1, 2, …` characters (under `re.DOTALL`). -/
def affilOptions (u : List Char) : List Nat :=
  match stripLit affilLit u with
  | none => []
  | some v =>
    let closes := (List.range v.length).filter (fun i => v.get? i = some '}')
    closes.flatMap (fun i =>
      (List.range (v.length - i)).map (fun e => affilLit.length + i + 1 + e))

/-- Return the first `some` produced by `f` over `l`, in order (the
backtracking search over a list of alternatives). -/
def firstSome (l : List Nat) (f : Nat → Option Nat) : Option Nat :=
  match l with
  | [] => none
  | x :: xs =>
    match f x with
    | some y => some y
    | none => firstSome xs f

/-- Match `(\\affiliation\{.*?\}.*?)*\}` against `u` by backtracking: the
greedy star first tries to consume one more group iteration (options in engine
order), and only when every continuation fails does it exit the star and
require a `}`.  Returns the number of characters consumed. -/
def matchStars : Nat → List Char → Option Nat
  | 0, _ => none
  | fuel + 1, u =>
    match firstSome (affilOptions u)
        (fun c => (matchStars fuel (u.drop c)).map (fun n => c + n)) with
    | some n => some n
    | none =>
      match u with
      | [] => none
      | c :: _ => if c = '}' then some 1 else none

/-- Match `.*?(\\affiliation\{.*?\}.*?)*\}` against `u` (the part of the author
pattern after the literal `\author{`): the outer lazy `.*?` tries prefixes of
ascending length, fully exploring the star for each.  Returns the number of
characters consumed. -/
def matchAuthorTail (u : List Char) : Option Nat :=
  firstSome (List.range (u.length + 1))
    (fun k => (matchStars u.length (u.drop k)).map (fun n => k + n))

/-- Anchored matcher for
`re.sub(r"\\author\{.*?(\\affiliation\{.*?\}.*?)*\}", "", text, flags=re.DOTALL)`. -/
def stepAuthor (u : List Char) : Option (List Char × List Char) :=
  match stripLit authorLit u with
  | none => none
  | some v => (matchAuthorTail v).map (fun n => ([], v.drop n))

/-- Literal `\IfFileExists{`. -/
def ifFileLit : List Char := '\\' :: ("IfFileExists").toList ++ ['{']

/-- Anchored matcher for
`re.sub(r"\\IfFileExists\{.*?\}\{\}", "", text, flags=re.DOTALL)`:
the lazy `.*?` stops at the first occurrence of the literal `}{}`. -/
def stepIfFileExists (u : List Char) : Option (List Char × List Char) :=
  match stripLit ifFileLit u with
  | none => none
  | some v => (findSubRest ['}', '{', '}'] v).map (fun rest => ([], rest))

/-- Anchored matcher for `re.sub(r"\\hyp\{\}", "-", text)`. -/
def stepHyp (u : List Char) : Option (List Char × List Char) :=
  match stripLit ('\\' :: ("hyp").toList ++ ['{', '}']) u with
  | none => none
  | some rest => some (['-'], rest)

/-- Anchored matcher for `re.sub(r"\\'e", "é", text)`. -/
def stepAccent (u : List Char) : Option (List Char × List Char) :=
  match stripLit ['\\', Char.ofNat 39, 'e'] u with
  | none => none
  | some rest => some (['é'], rest)

/-- The literal `\begin{name}`. -/
def beginMarker (name : List Char) : List Char :=
  '\\' :: ("begin").toList ++ '{' :: name ++ ['}']

/-- The literal `\end{name}` (with an optional space after `\end`, matching the
`( )?` group of the source patterns). -/
def endMarker (sp : Bool) (name : List Char) : List Char :=
  '\\' :: ("end").toList ++ (if sp then [' '] else []) ++ '{' :: name ++ ['}']

/-- The environment names whose opening marker is deleted up front
(`openers` in the source). -/
def openers : List (List Char) :=
  [("document").toList, ("otherlanguage").toList,
   ("refcontext").toList, ("refsection").toList]

/-- Anchored matcher for `re.sub(r"\\begin\{" + com + r"\}", "", text)`
(one opener neutralization). -/
def stepOpener (com : List Char) (u : List Char) : Option (List Char × List Char) :=
  match stripLit (beginMarker com) u with
  | none => none
  | some rest => some ([], rest)

/-- The quote-like environments (`to_preserve` in the source). -/
def to_preserve : List (List Char) := [("quote").toList, ("quotation").toList]

/-- Locate the first occurrence of `\end{env}` / `\end {env}` (exact case):
returns the text before the marker and the remainder after it. -/
def findEnvEnd (env : List Char) : List Char → Option (List Char × List Char)
  | [] => none
  | c :: r =>
    match stripLit (endMarker true env) (c :: r) with
    | some rest => some ([], rest)
    | none =>
      match stripLit (endMarker false env) (c :: r) with
      | some rest => some ([], rest)
      | none => (findEnvEnd env r).map (fun p => (c :: p.1, p.2))

/-- Anchored matcher for
`re.sub(r"\\begin\{env\}(.*?)\\end( )?\{env\}", "\\1", text, flags=re.DOTALL)`:
the markers are dropped and the captured content is kept. -/
def stepPreserve (env : List Char) (u : List Char) :
    Option (List Char × List Char) :=
  match stripLit (beginMarker env) u with
  | none => none
  | some v => findEnvEnd env v

/-- Consume an optional single occurrence of the character `d` at the front
(the greedy `(d)?` of the source patterns, whose failing backtrack into the
zero-width alternative can never succeed because the following literal
differs from `d`). -/
def dropOptChar (d : Char) (v : List Char) : List Char :=
  match v with
  | c :: w => if c = d then w else c :: w
  | [] => []

/-- Match `\{name\}` case-insensitively at the front of `w` (the backreference
`(?P=env)` compares case-insensitively under `re.IGNORECASE`); returns the
remainder. -/
def matchBraceNameCI (name w : List Char) : Option (List Char) :=
  match w with
  | [] => none
  | c :: x =>
    if c = '{' then
      match stripCI name x with
      | none => none
      | some y =>
        match y with
        | [] => none
        | d :: rest => if d = '}' then some rest else none
    else none

/-- Match `\end( )?\{name\}` case-insensitively at the front of `u`; returns
the remainder after the marker. -/
def matchEndCI (name : List Char) (u : List Char) : Option (List Char) :=
  match stripCI ('\\' :: ("end").toList) u with
  | none => none
  | some v => matchBraceNameCI name (dropOptChar ' ' v)

/-- Locate (non-greedily, across lines) the first case-insensitive
`\end( )?\{name\}`; returns the remainder after it. -/
def findEnvEndCI (name : List Char) : List Char → Option (List Char)
  | [] => none
  | c :: r =>
    match matchEndCI name (c :: r) with
    | some rest => some rest
    | none => findEnvEndCI name r

/-- Anchored matcher for
`re.sub(r"\\begin\{(?P<env>[a-z]+)\}.*?\\end( )?\{(?P=env)\}", "", text,
flags=re.DOTALL|re.IGNORECASE)` — the generic environment deletion. -/
def stepDeleteEnv (u : List Char) : Option (List Char × List Char) :=
  match stripCI ('\\' :: ("begin").toList ++ ['{']) u with
  | none => none
  | some v =>
    let p := takeLetters v
    if p.1 = [] then none
    else
      match p.2 with
      | [] => none
      | c :: x =>
        if c = '}' then (findEnvEndCI p.1 x).map (fun rest => ([], rest))
        else none

/-- Anchored matcher for
`re.sub(r"\\ea.*?\\z", "", text, flags=re.DOTALL)` (gb4e examples). -/
def stepGb4e (u : List Char) : Option (List Char × List Char) :=
  match stripLit ('\\' :: ("ea").toList) u with
  | none => none
  | some v => (findSubRest ['\\', 'z'] v).map (fun rest => ([], rest))

/-- The inline unwrap command names (`to_replace` in the source), in order. -/
def to_replace : List (List Char) :=
  [("textbf").toList, ("textsc").toList, ("textit").toList, ("textrm").toList,
   ("ili").toList, ("isi").toList, ("emph").toList, ("enquote").toList,
   ("footnote").toList]

/-- Anchored matcher for `re.sub(r"\\com\{(.*?)\}", "\\1", text)`: the command
token and braces are dropped, the (lazy, single-line) argument is kept. -/
def stepInline (com : List Char) (u : List Char) :
    Option (List Char × List Char) :=
  match stripLit ('\\' :: com ++ ['{']) u with
  | none => none
  | some v => splitBeforeCharNoNL '}' v

/-- The line-replacement command names (`to_replace_line` in the source). -/
def to_replace_line : List (List Char) :=
  [("title").toList, ("abstract").toList, ("caption").toList,
   ("chapter").toList]

/-- The current line of `u`: its characters up to the first newline. -/
def takeLine : List Char → List Char
  | [] => []
  | c :: r => if c = '\n' then [] else c :: takeLine r

/-- The greedy `(.*)\}(?!\})` search: index of the last `}` on the line whose
successor (in the full text — within the line, or the line-ending newline /
end of text) is not another `}`. -/
def lastValidBrace : List Char → Option Nat
  | [] => none
  | c :: r =>
    match lastValidBrace r with
    | some i => some (i + 1)
    | none =>
      if c = '}' && !(r.head? == some '}') then some 0 else none

/-- Anchored matcher for
`re.sub(r"\\com(\*)?\{(.*)\}(?!\})", "\\n\\2 ", text)`: the whole command is
replaced by a newline, the greedily captured argument, and a trailing space. -/
def stepLineCmd (com : List Char) (u : List Char) :
    Option (List Char × List Char) :=
  match stripLit ('\\' :: com) u with
  | none => none
  | some v =>
    match dropOptChar '*' v with
    | [] => none
    | c :: x =>
      if c = '{' then
        match lastValidBrace (takeLine x) with
        | some i => some ('\n' :: x.take i ++ [' '], x.drop (i + 1))
        | none => none
      else none

/-- Split off the maximal run of characters from the class `[sub]`. -/
def takeSUB : List Char → List Char × List Char
  | [] => ([], [])
  | c :: r =>
    if c = 's' || c = 'u' || c = 'b' then
      let p := takeSUB r
      (c :: p.1, p.2)
    else ([], c :: r)

/-- Greedy backtracking of `[sub]*` followed by the literal `section`: try
consuming the whole run first, then shorter run prefixes; returns the
remainder after `section`. -/
def sectionAfterRun (run w : List Char) : Option (List Char) :=
  match run with
  | [] => stripLit ("section").toList w
  | c :: rs =>
    match sectionAfterRun rs w with
    | some r => some r
    | none => stripLit ("section").toList (c :: rs ++ w)

/-- Anchored matcher for
`re.sub(r"\\[sub]*section[\*]?\{(.*?)\}", "\\n\\n\\1\\n", text)`. -/
def stepSection (u : List Char) : Option (List Char × List Char) :=
  match stripLit ['\\'] u with
  | none => none
  | some v =>
    let p := takeSUB v
    match sectionAfterRun p.1 p.2 with
    | none => none
    | some w =>
      match dropOptChar '*' w with
      | [] => none
      | c :: x =>
        if c = '{' then
          (splitBeforeCharNoNL '}' x).map
            (fun q => ('\n' :: '\n' :: q.1 ++ ['\n'], q.2))
        else none

/-- Anchored matcher for
`re.sub(r"\\title\[(.*?)\]", "\\1", text, flags=re.DOTALL)` (short title). -/
def stepShortTitle (u : List Char) : Option (List Char × List Char) :=
  match stripLit ('\\' :: ("title").toList ++ ['[']) u with
  | none => none
  | some v => splitBeforeChar ']' v

/-- The cross-reference noun words (`to_delete` in the source). -/
def to_delete : List (List Char) :=
  [("section").toList, ("sections").toList, ("figure").toList,
   ("figures").toList, ("table").toList, ("tables").toList]

/-- Anchored matcher for
`re.sub(com + r"( |~)\\[a-z]*ref\{.*?\}", "", text, flags=re.IGNORECASE)`:
the noun, connective, reference command and its argument are all deleted.
`\\[a-z]*ref` matches a backslash plus a letter run ending in `ref`
(case-insensitively) that is immediately followed by `{`. -/
def stepCrossref (w : List Char) (u : List Char) :
    Option (List Char × List Char) :=
  match stripCI w u with
  | none => none
  | some v =>
    match v with
    | [] => none
    | c :: v2 =>
      if c = ' ' || c = '~' then
        match v2 with
        | [] => none
        | d :: v3 =>
          if d = '\\' then
            let p := takeLetters v3
            if decide (3 ≤ p.1.length) &&
               ((p.1.map lowerChar).drop (p.1.length - 3) == ("ref").toList) then
              match p.2 with
              | [] => none
              | e :: x =>
                if e = '{' then
                  (splitBeforeCharNoNL '}' x).map (fun q => ([], q.2))
                else none
            else none
          else none
      else none

/-- Greedy `(\{.*?\})+`: consume one or more immediately consecutive
single-line brace groups; returns the remainder. -/
def braceGroups : Nat → List Char → Option (List Char)
  | 0, _ => none
  | fuel + 1, u =>
    match u with
    | [] => none
    | c :: x =>
      if c = '{' then
        match splitBeforeCharNoNL '}' x with
        | none => none
        | some q =>
          match braceGroups fuel q.2 with
          | some rest => some rest
          | none => some q.2
      else none

/-- The optional bracket group `(\[.*?\])?` followed by `(\{.*?\})+`, entered
at the content following `[`: the lazy `.*?` stops at each `]` on the line in
turn until the brace groups match. -/
def bracketThenBraces : Nat → List Char → Option (List Char)
  | 0, _ => none
  | fuel + 1, u =>
    match u with
    | [] => none
    | c :: r =>
      if c = ']' then
        match braceGroups r.length r with
        | some rest => some rest
        | none => bracketThenBraces fuel r
      else if c = '\n' then none
      else bracketThenBraces fuel r

/-- Anchored matcher for
`re.sub(r"\\[a-z]+(\[.*?\])?(\{.*?\})+", "", text, flags=re.IGNORECASE)` —
residual command deletion with arguments. -/
def stepCmdArgs (u : List Char) : Option (List Char × List Char) :=
  match stripLit ['\\'] u with
  | none => none
  | some v =>
    let p := takeLetters v
    if p.1 = [] then none
    else
      match p.2 with
      | [] => none
      | c :: x =>
        if c = '[' then (bracketThenBraces x.length x).map (fun rest => ([], rest))
        else (braceGroups p.2.length p.2).map (fun rest => ([], rest))

/-- Anchored matcher for
`re.sub(r"\\[a-z]+", "", text, flags=re.IGNORECASE)` — residual bare command
deletion. -/
def stepCmdBare (u : List Char) : Option (List Char × List Char) :=
  match stripLit ['\\'] u with
  | none => none
  | some v =>
    let p := takeLetters v
    if p.1 = [] then none else some ([], p.2)

/-- Split off the maximal run of spaces and tabs (`( |\t)*`). -/
def takeSpaces : List Char → List Char × List Char
  | [] => ([], [])
  | c :: r =>
    if c = ' ' || c = '\t' then
      let p := takeSpaces r
      (c :: p.1, p.2)
    else ([], c :: r)

/-- Anchored matcher for
`re.sub(r"\n( |\t)*(\{|\}|\])|(\]|\}|\{)\n", " ", text)` — stray brace and
bracket cleanup around line boundaries. -/
def stepBraceNL (u : List Char) : Option (List Char × List Char) :=
  match u with
  | [] => none
  | c :: r =>
    if c = '\n' then
      match (takeSpaces r).2 with
      | [] => none
      | d :: w => if d = '{' || d = '}' || d = ']' then some ([' '], w) else none
    else if c = '{' || c = '}' || c = ']' then
      match r with
      | [] => none
      | d :: w => if d = '\n' then some ([' '], w) else none
    else none

/-- Anchored matcher for `re.sub(r"\n\n\n", "\n", text)` — whitespace
normalization. -/
def stepTripleNL (u : List Char) : Option (List Char × List Char) :=
  match stripLit ['\n', '\n', '\n'] u with
  | none => none
  | some r => some (['\n'], r)

/-- The `detex` transformation: the source's chain of `re.sub` calls, in
order. -/
def detex (text : List Char) : List Char :=
  let t1 := reSub stepComment text
  let t2 := reSub stepSymbols t1
  let t3 := reSub stepAuthor t2
  let t4 := reSub stepIfFileExists t3
  let t5 := reSub stepHyp t4
  let t6 := reSub stepAccent t5
  let t7 := openers.foldl (fun t com => reSub (stepOpener com) t) t6
  let t8 := to_preserve.foldl (fun t env => reSub (stepPreserve env) t) t7
  let t9 := reSub stepDeleteEnv t8
  let t10 := reSub stepGb4e t9
  let t11 := to_replace.foldl (fun t com => reSub (stepInline com) t) t10
  let t12 := to_replace_line.foldl (fun t com => reSub (stepLineCmd com) t) t11
  let t13 := reSub stepSection t12
  let t14 := reSub stepShortTitle t13
  let t15 := to_delete.foldl (fun t w => reSub (stepCrossref w) t) t14
  let t16 := reSub stepCmdArgs t15
  let t17 := reSub stepCmdBare t16
  let t18 := reSub stepBraceNL t17
  reSub stepTripleNL t18

/-- Python truncation `int(q)` for a rational (truncates toward zero). -/
def pyInt (q : ℚ) : ℤ := if 0 ≤ q then q.floor else -(-q).floor

/-- Decimal rendering of an integer, as Python's f-string interpolation does. -/
def intRepr (n : ℤ) : List Char :=
  if 0 ≤ n then (Nat.repr n.toNat).toList
  else '-' :: (Nat.repr (-n).toNat).toList

/-- The warning text printed by `main`:
`f"Warning: Less than {int(threshold*100)}% of the content remains for file {fi}"`. -/
def warning_message (threshold : ℚ) (fi : List Char) : List Char :=
  ("Warning: Less than ").toList ++ intRepr (pyInt (threshold * 100)) ++
    ("% of the content remains for file ").toList ++ fi

/-- The warning decision of `main` for one file, from the original and
stripped lengths: `if len(detexed) < len(text)*threshold: print(...)`. -/
def mainWarning (textLen detexedLen : ℕ) (threshold : ℚ) (fi : List Char) :
    Option (List Char) :=
  if (detexedLen : ℚ) < threshold * (textLen : ℚ) then
    some (warning_message threshold fi)
  else none

/-- One iteration of `main`'s per-file body (file I/O aside): the detexed
content that is written, and the warning, if any, that is printed. -/
def mainProcessFile (fi : List Char) (text : List Char) (threshold : ℚ) :
    List Char × Option (List Char) :=
  let detexed := detex text
  (detexed, mainWarning text.length detexed.length threshold fi)

/-- Substring test (`pat in f` for Python strings). -/
def containsSub (pat : List Char) : List Char → Bool
  | [] => pat.isEmpty
  | c :: rest => List.isPrefixOf pat (c :: rest) || containsSub pat rest

/-- Lexicographic (code-point) strict comparison of strings, as Python's
`<` on `str`. -/
def strLt : List Char → List Char → Bool
  | [], [] => false
  | [], _ :: _ => true
  | _ :: _, [] => false
  | c :: cs, d :: ds => if c = d then strLt cs ds else decide (c.toNat < d.toNat)

/-- Stable insertion into a sorted list (ascending). -/
def insertSorted (x : List Char) : List (List Char) → List (List Char)
  | [] => [x]
  | y :: ys => if strLt x y then x :: y :: ys else y :: insertSorted x ys

/-- `sorted(files)`: a stable ascending sort. -/
def sortFiles (l : List (List Char)) : List (List Char) :=
  l.foldr insertSorted []

/-- `files.remove(f)`: delete the first occurrence. -/
def removeFirst (x : List Char) : List (List Char) → List (List Char)
  | [] => []
  | y :: ys => if y = x then ys else y :: removeFirst x ys

/-- `files.insert(c, f)`: insert at index `c` (clamped to the end). -/
def insertAt (n : ℕ) (x : List Char) : List (List Char) → List (List Char)
  | [] => [x]
  | y :: ys =>
    match n with
    | 0 => x :: y :: ys
    | m + 1 => y :: insertAt m x ys

/-- The intro test of `_sort_chapters`:
`"intro" in f or "einleitung" in f or "1" in f`. -/
def introLike (f : List Char) : Bool :=
  containsSub ("intro").toList f || containsSub ("einleitung").toList f ||
    containsSub ("1").toList f

/-- The body of `_sort_chapters`'s `for f in files:` loop, with Python's
semantics of iterating by index over the list being mutated: at index `i`,
an intro-like name is removed and re-inserted at the front counter `c`
(then `c` increments); a conclusion-like name is removed and appended. -/
def sortChaptersLoop : ℕ → ℕ → ℕ → List (List Char) → List (List Char)
  | 0, _, _, files => files
  | fuel + 1, i, c, files =>
    if h : i < files.length then
      let f := files.get ⟨i, h⟩
      if introLike f then
        sortChaptersLoop fuel (i + 1) (c + 1) (insertAt c f (removeFirst f files))
      else if containsSub ("conclusion").toList f then
        sortChaptersLoop fuel (i + 1) c (removeFirst f files ++ [f])
      else sortChaptersLoop fuel (i + 1) c files
    else files

/-- `_sort_chapters(files)`: sort alphabetically, then run the mutating loop.
(Each loop branch preserves the list length, so `length` rounds of fuel
replay the Python `for` loop exactly.) -/
def sort_chapters (files : List (List Char)) : List (List Char) :=
  let s := sortFiles files
  sortChaptersLoop s.length 0 0 s

/-- The characters no rewrite stage can act on (directly or inside a pattern):
comment marker, math delimiters, backslash, braces and brackets.  Text made of
"plain" characters only passes through every stage except the final newline
normalization unchanged. -/
def plainChar (c : Char) : Bool :=
  !(c = '%' || c = '$' || c = '|' || c = '\\' || c = '{' || c = '}' ||
    c = '[' || c = ']')

/-- A text all of whose characters are plain. -/
def isPlain (t : List Char) : Bool := t.all plainChar

/-- Remove all whitespace characters (space, tab, newline): the yardstick for
"differs at most in whitespace". -/
def dropWS (t : List Char) : List Char :=
  t.filter (fun c => !(c = ' ' || c = '\t' || c = '\n'))

/-! ### Generic properties of the `re.sub` scanner -/

/-- A step function never matches the empty text. -/
def StepNil (step : List Char → Option (List Char × List Char)) : Prop :=
  step [] = none

/-- Every match consumes at least one character. -/
def StepShrinks (step : List Char → Option (List Char × List Char)) : Prop :=
  ∀ u p, step u = some p → p.2.length < u.length

/-- Characters of a step's output come from the matched text or from the
step's fixed replacement characters; the remainder is made of input
characters. -/
def StepChars (step : List Char → Option (List Char × List Char))
    (extra : List Char) : Prop :=
  ∀ u p, step u = some p →
    (∀ c, c ∈ p.1 → c ∈ u ∨ c ∈ extra) ∧ (∀ c, c ∈ p.2 → c ∈ u)

theorem scanAux_nil (step : List Char → Option (List Char × List Char))
    (fuel : Nat) : scanAux step fuel [] = [] := by
  cases fuel <;> rfl

theorem scanAux_congr (step : List Char → Option (List Char × List Char))
    (hs : StepShrinks step) :
    ∀ f1 f2 t, t.length ≤ f1 → t.length ≤ f2 →
      scanAux step f1 t = scanAux step f2 t := by
  intro f1
  induction f1 with
  | zero =>
    intro f2 t h1 _
    have : t = [] := List.length_eq_zero.mp (Nat.le_zero.mp h1)
    subst this
    rw [scanAux_nil, scanAux_nil]
  | succ f ih =>
    intro f2 t h1 h2
    cases t with
    | nil => rw [scanAux_nil, scanAux_nil]
    | cons c r =>
      cases f2 with
      | zero => exact absurd h2 (by simp)
      | succ g =>
        show (match step (c :: r) with
          | some p => p.1 ++ scanAux step f p.2
          | none => c :: scanAux step f r) =
          (match step (c :: r) with
          | some p => p.1 ++ scanAux step g p.2
          | none => c :: scanAux step g r)
        cases hstep : step (c :: r) with
        | none =>
          have hr : r.length ≤ f := by simpa using h1
          have hr2 : r.length ≤ g := by simpa using h2
          simp only []
          rw [ih g r hr hr2]
        | some p =>
          have hp : p.2.length < r.length + 1 := by
            simpa using hs _ _ hstep
          have hp1 : p.2.length ≤ f := by
            have := Nat.lt_of_lt_of_le hp (by simpa using h1 : r.length + 1 ≤ f + 1)
            omega
          have hp2 : p.2.length ≤ g := by
            have := Nat.lt_of_lt_of_le hp (by simpa using h2 : r.length + 1 ≤ g + 1)
            omega
          simp only []
          rw [ih g p.2 hp1 hp2]

theorem reSub_nil (step : List Char → Option (List Char × List Char)) :
    reSub step [] = [] := rfl

theorem reSub_cons_skip (step : List Char → Option (List Char × List Char))
    {c : Char} {r : List Char} (h : step (c :: r) = none) :
    reSub step (c :: r) = c :: reSub step r := by
  show scanAux step (r.length + 1) (c :: r) = c :: scanAux step r.length r
  show (match step (c :: r) with
    | some p => p.1 ++ scanAux step r.length p.2
    | none => c :: scanAux step r.length r) = c :: scanAux step r.length r
  rw [h]

theorem reSub_cons_match (step : List Char → Option (List Char × List Char))
    (hs : StepShrinks step) {c : Char} {r : List Char}
    {p : List Char × List Char} (h : step (c :: r) = some p) :
    reSub step (c :: r) = p.1 ++ reSub step p.2 := by
  show scanAux step (r.length + 1) (c :: r) = p.1 ++ reSub step p.2
  show (match step (c :: r) with
    | some q => q.1 ++ scanAux step r.length q.2
    | none => c :: scanAux step r.length r) = p.1 ++ reSub step p.2
  rw [h]
  have hp : p.2.length ≤ r.length := Nat.lt_succ_iff.mp (by simpa using hs _ _ h)
  show p.1 ++ scanAux step r.length p.2 = p.1 ++ scanAux step p.2.length p.2
  rw [scanAux_congr step hs r.length p.2.length p.2 hp le_rfl]

theorem reSub_append (step : List Char → Option (List Char × List Char))
    {a b : List Char} (h : ∀ n, n < a.length → step (a.drop n ++ b) = none) :
    reSub step (a ++ b) = a ++ reSub step b := by
  induction a with
  | nil => simp
  | cons c a' ih =>
    have h0 : step (c :: (a' ++ b)) = none := by simpa using h 0 (by simp)
    have step1 : reSub step (c :: (a' ++ b)) = c :: reSub step (a' ++ b) :=
      reSub_cons_skip step h0
    have step2 : reSub step (a' ++ b) = a' ++ reSub step b :=
      ih (fun n hn => by simpa using h (n + 1) (by simpa using hn))
    simpa [step2] using step1

/-- No position of `t` starts a match of `step`. -/
def NoStart (step : List Char → Option (List Char × List Char))
    (t : List Char) : Prop :=
  ∀ n, step (t.drop n) = none

theorem reSub_id_of_noStart (step : List Char → Option (List Char × List Char))
    {t : List Char} (h : NoStart step t) : reSub step t = t := by
  have := reSub_append step (a := t) (b := [])
    (fun n hn => by simpa using h n)
  simpa [reSub_nil] using this

theorem noStart_append {step : List Char → Option (List Char × List Char)}
    {a b : List Char} (h1 : ∀ n, n < a.length → step (a.drop n ++ b) = none)
    (h2 : NoStart step b) : NoStart step (a ++ b) := by
  intro n
  rcases Nat.lt_or_ge n a.length with hn | hn
  · have : (a ++ b).drop n = a.drop n ++ b.drop (n - a.length) :=
      List.drop_append_eq_append_drop
    rw [this, Nat.sub_eq_zero_of_le (Nat.le_of_lt hn), List.drop_zero]
    exact h1 n hn
  · have : (a ++ b).drop n = a.drop n ++ b.drop (n - a.length) :=
      List.drop_append_eq_append_drop
    rw [this, List.drop_eq_nil_of_le (by omega), List.nil_append]
    exact h2 (n - a.length)

theorem stepNone_on_prefix {step : List Char → Option (List Char × List Char)}
    {a : List Char} (b : List Char)
    (h : ∀ c r, c ∈ a → step (c :: r) = none) :
    ∀ n, n < a.length → step (a.drop n ++ b) = none := by
  intro n hn
  cases hd : a.drop n with
  | nil =>
    exfalso
    have := congrArg List.length hd
    simp [List.length_drop] at this
    omega
  | cons c r =>
    have hc : c ∈ a := List.drop_subset n a (hd ▸ List.mem_cons_self c r)
    exact h c (r ++ b) hc

theorem noStart_of_heads {step : List Char → Option (List Char × List Char)}
    {t : List Char} (h0 : StepNil step)
    (h : ∀ c r, c ∈ t → step (c :: r) = none) : NoStart step t := by
  intro n
  cases hd : t.drop n with
  | nil => exact h0
  | cons c r =>
    have hc : c ∈ t := List.drop_subset n t (hd ▸ List.mem_cons_self c r)
    exact h c r hc

theorem mem_scanAux {step : List Char → Option (List Char × List Char)}
    {extra : List Char} (hm : StepChars step extra) :
    ∀ fuel t c, c ∈ scanAux step fuel t → c ∈ t ∨ c ∈ extra := by
  intro fuel
  induction fuel with
  | zero => intro t c hc; exact Or.inl hc
  | succ f ih =>
    intro t c hc
    cases t with
    | nil => rw [scanAux_nil] at hc; exact absurd hc (by simp)
    | cons d r =>
      have hc2 : c ∈ (match step (d :: r) with
          | some p => p.1 ++ scanAux step f p.2
          | none => d :: scanAux step f r) := hc
      cases hstep : step (d :: r) with
      | none =>
        rw [hstep] at hc2
        rcases List.mem_cons.mp hc2 with h | h
        · exact Or.inl (h ▸ List.mem_cons_self d r)
        · rcases ih r c h with h2 | h2
          · exact Or.inl (List.mem_cons_of_mem d h2)
          · exact Or.inr h2
      | some p =>
        rw [hstep] at hc2
        rcases List.mem_append.mp hc2 with h | h
        · rcases (hm _ _ hstep).1 c h with h2 | h2
          · exact Or.inl h2
          · exact Or.inr h2
        · rcases ih p.2 c h with h2 | h2
          · exact Or.inl ((hm _ _ hstep).2 c h2)
          · exact Or.inr h2

theorem not_mem_reSub {step : List Char → Option (List Char × List Char)}
    {extra : List Char} (hm : StepChars step extra) {t : List Char} {d : Char}
    (h1 : d ∉ t) (h2 : d ∉ extra) : d ∉ reSub step t :=
  fun hd => (mem_scanAux hm _ _ _ hd).elim h1 h2

/-! ### Structural facts about the parsing helpers -/

theorem stripLit_eq : ∀ {p u r : List Char}, stripLit p u = some r → u = p ++ r := by
  intro p
  induction p with
  | nil => intro u r h; cases h; rfl
  | cons d ps ih =>
    intro u r h
    cases u with
    | nil => cases h
    | cons c cs =>
      by_cases hc : d = c
      · subst hc
        have h2 : stripLit ps cs = some r := by
          rw [stripLit, if_pos rfl] at h; exact h
        simpa using ih h2
      · rw [stripLit, if_neg hc] at h; cases h

theorem stripLit_self : ∀ (p r : List Char), stripLit p (p ++ r) = some r := by
  intro p
  induction p with
  | nil => intro r; rfl
  | cons d ps ih => intro r; rw [List.cons_append, stripLit, if_pos rfl]; exact ih r

theorem stripLit_none_head {d : Char} {ps : List Char} {c : Char}
    {r : List Char} (h : c ≠ d) : stripLit (d :: ps) (c :: r) = none := by
  rw [stripLit, if_neg (fun hh => h hh.symm)]

theorem stripLit_nil_none {d : Char} {ps : List Char} :
    stripLit (d :: ps) [] = none := rfl

theorem stripLit_length {p u r : List Char} (h : stripLit p u = some r) :
    u.length = p.length + r.length := by
  have := congrArg List.length (stripLit_eq h)
  simpa using this

theorem stripLit_sub {p u r : List Char} (h : stripLit p u = some r) :
    ∀ c, c ∈ r → c ∈ u := by
  intro c hc
  rw [stripLit_eq h]
  exact List.mem_append_right p hc

theorem stripCI_exists : ∀ {p u r : List Char}, stripCI p u = some r →
    ∃ q, u = q ++ r ∧ q.map lowerChar = p.map lowerChar := by
  intro p
  induction p with
  | nil => intro u r h; cases h; exact ⟨[], rfl, rfl⟩
  | cons d ps ih =>
    intro u r h
    cases u with
    | nil => cases h
    | cons c cs =>
      by_cases hc : lowerChar d = lowerChar c
      · have h2 : stripCI ps cs = some r := by
          rw [stripCI, if_pos hc] at h; exact h
        obtain ⟨q, hq1, hq2⟩ := ih h2
        exact ⟨c :: q, by simpa using hq1, by simp [hq2, hc]⟩
      · rw [stripCI, if_neg hc] at h; cases h

theorem stripCI_of_map_eq : ∀ {p q : List Char}
    (_ : p.map lowerChar = q.map lowerChar) (r : List Char),
    stripCI p (q ++ r) = some r := by
  intro p
  induction p with
  | nil =>
    intro q h r
    have : q = [] := by simpa using congrArg List.length h.symm
    subst this; rfl
  | cons d ps ih =>
    intro q h r
    cases q with
    | nil => exact absurd (congrArg List.length h) (by simp)
    | cons c cs =>
      have h1 : lowerChar d = lowerChar c := by simpa using congrArg List.head? h
      have h2 : ps.map lowerChar = cs.map lowerChar := by
        simpa using congrArg List.tail h
      rw [List.cons_append, stripCI, if_pos h1]
      exact ih h2 r

theorem stripCI_self (p r : List Char) : stripCI p (p ++ r) = some r :=
  stripCI_of_map_eq rfl r

theorem stripCI_none_head {d : Char} {ps : List Char} {c : Char} {r : List Char}
    (h : lowerChar d ≠ lowerChar c) : stripCI (d :: ps) (c :: r) = none := by
  rw [stripCI, if_neg h]

theorem stripCI_nil_none {d : Char} {ps : List Char} :
    stripCI (d :: ps) [] = none := rfl

theorem stripCI_sub {p u r : List Char} (h : stripCI p u = some r) :
    ∀ c, c ∈ r → c ∈ u := by
  intro c hc
  obtain ⟨q, hq, -⟩ := stripCI_exists h
  rw [hq]
  exact List.mem_append_right q hc

theorem stripCI_length {p u r : List Char} (h : stripCI p u = some r) :
    u.length = p.length + r.length := by
  obtain ⟨q, hq, hm⟩ := stripCI_exists h
  have hl : q.length = p.length := by
    have := congrArg List.length hm
    simpa using this
  have := congrArg List.length hq
  simp [hl] at this
  omega

theorem lowerChar_ne_backslash {c : Char} (h : c ≠ '\\') :
    lowerChar c ≠ '\\' := by
  have hall : ∀ q ∈ upperLowerTable, q.2 ≠ '\\' := by decide
  cases hf : upperLowerTable.find? (fun p => p.1 == c) with
  | none => simpa [lowerChar, hf] using h
  | some pr => simpa [lowerChar, hf] using hall pr (List.mem_of_find?_eq_some hf)

theorem lowerChar_backslash : lowerChar '\\' = '\\' := by decide

theorem letter_ne_of_not_letter {c d : Char} (hc : isAsciiLetter c = true)
    (hd : isAsciiLetter d = false) : c ≠ d := by
  intro h; rw [h] at hc; rw [hc] at hd; cases hd

theorem mem_concrete_ne {c d : Char} {l : List Char} (hc : c ∈ l)
    (hd : d ∉ l) : c ≠ d := fun h => hd (h ▸ hc)

theorem splitBeforeChar_eq {d : Char} : ∀ {u b r : List Char},
    splitBeforeChar d u = some (b, r) → u = b ++ d :: r ∧ d ∉ b := by
  intro u
  induction u with
  | nil => intro b r h; cases h
  | cons c cs ih =>
    intro b r h
    by_cases hc : c = d
    · subst hc
      rw [splitBeforeChar, if_pos rfl] at h
      cases h
      exact ⟨rfl, by simp⟩
    · rw [splitBeforeChar, if_neg hc] at h
      cases hsp : splitBeforeChar d cs with
      | none => rw [hsp] at h; cases h
      | some q =>
        rw [hsp] at h
        have h2 : some (c :: q.1, q.2) = some (b, r) := h
        cases h2
        obtain ⟨he, hm⟩ := ih (by rw [hsp])
        refine ⟨by rw [List.cons_append, ← he], ?_⟩
        intro hmem
        rcases List.mem_cons.mp hmem with h1 | h1
        · exact hc h1.symm
        · exact hm h1

theorem splitBeforeChar_of {d : Char} : ∀ {b : List Char} (r : List Char),
    d ∉ b → splitBeforeChar d (b ++ d :: r) = some (b, r) := by
  intro b
  induction b with
  | nil => intro r _; rw [List.nil_append, splitBeforeChar, if_pos rfl]
  | cons c cs ih =>
    intro r h
    have hc : ¬(c = d) := by
      intro hh; exact h (by rw [hh]; exact List.mem_cons_self d cs)
    have htail : d ∉ cs := fun hm => h (List.mem_cons_of_mem c hm)
    rw [List.cons_append, splitBeforeChar, if_neg hc, ih r htail]
    rfl

theorem splitBeforeCharNoNL_eq {d : Char} : ∀ {u b r : List Char},
    splitBeforeCharNoNL d u = some (b, r) →
    u = b ++ d :: r ∧ d ∉ b ∧ '\n' ∉ b := by
  intro u
  induction u with
  | nil => intro b r h; cases h
  | cons c cs ih =>
    intro b r h
    by_cases hc : c = d
    · subst hc
      rw [splitBeforeCharNoNL, if_pos rfl] at h
      cases h
      exact ⟨rfl, by simp, by simp⟩
    · by_cases hn : c = '\n'
      · rw [splitBeforeCharNoNL, if_neg hc, if_pos hn] at h; cases h
      · rw [splitBeforeCharNoNL, if_neg hc, if_neg hn] at h
        cases hsp : splitBeforeCharNoNL d cs with
        | none => rw [hsp] at h; cases h
        | some q =>
          rw [hsp] at h
          have h2 : some (c :: q.1, q.2) = some (b, r) := h
          cases h2
          obtain ⟨he, hm, hm2⟩ := ih (by rw [hsp])
          refine ⟨by rw [List.cons_append, ← he], ?_, ?_⟩
          · intro hmem
            rcases List.mem_cons.mp hmem with h1 | h1
            · exact hc h1.symm
            · exact hm h1
          · intro hmem
            rcases List.mem_cons.mp hmem with h1 | h1
            · exact hn h1.symm
            · exact hm2 h1

theorem splitBeforeCharNoNL_of {d : Char} : ∀ {b : List Char} (r : List Char),
    d ∉ b → '\n' ∉ b → splitBeforeCharNoNL d (b ++ d :: r) = some (b, r) := by
  intro b
  induction b with
  | nil => intro r _ _; rw [List.nil_append, splitBeforeCharNoNL, if_pos rfl]
  | cons c cs ih =>
    intro r h hn
    have hc : ¬(c = d) := by
      intro hh; exact h (by rw [hh]; exact List.mem_cons_self d cs)
    have hcn : ¬(c = '\n') := by
      intro hh; exact hn (by rw [← hh]; exact List.mem_cons_self c cs)
    have htail : d ∉ cs := fun hm => h (List.mem_cons_of_mem c hm)
    have hntail : '\n' ∉ cs := fun hm => hn (List.mem_cons_of_mem c hm)
    rw [List.cons_append, splitBeforeCharNoNL, if_neg hc, if_neg hcn,
      ih r htail hntail]
    rfl

theorem findSubRest_exists {pat : List Char} : ∀ {u r : List Char},
    findSubRest pat u = some r → ∃ pre, u = pre ++ pat ++ r := by
  intro u
  induction u with
  | nil => intro r h; cases h
  | cons c cs ih =>
    intro r h
    rw [findSubRest] at h
    cases hs : stripLit pat (c :: cs) with
    | some rest =>
      rw [hs] at h
      cases h
      exact ⟨[], by simpa using stripLit_eq hs⟩
    | none =>
      rw [hs] at h
      obtain ⟨pre, hpre⟩ := ih h
      exact ⟨c :: pre, by simpa using hpre⟩

theorem findSubRest_none_head {pat : List Char} {e : Char} {ps : List Char}
    {c : Char} {r : List Char} (hpat : pat = e :: ps) (hc : c ≠ e)
    (htail : findSubRest pat r = none) : findSubRest pat (c :: r) = none := by
  subst hpat
  rw [findSubRest, stripLit_none_head hc, htail]

theorem afterLine_sub : ∀ (u : List Char) (c : Char), c ∈ afterLine u → c ∈ u := by
  intro u
  induction u with
  | nil => intro c h; exact absurd h (by simp [afterLine])
  | cons d r ih =>
    intro c h
    by_cases hd : d = '\n'
    · rw [afterLine, if_pos hd] at h; exact h
    · rw [afterLine, if_neg hd] at h
      exact List.mem_cons_of_mem d (ih c h)

theorem afterLine_len : ∀ (u : List Char), (afterLine u).length ≤ u.length := by
  intro u
  induction u with
  | nil => simp [afterLine]
  | cons d r ih =>
    by_cases hd : d = '\n'
    · rw [afterLine, if_pos hd]
    · rw [afterLine, if_neg hd]
      exact Nat.le_succ_of_le ih

theorem afterLine_append {junk rest : List Char} (h : '\n' ∉ junk) :
    afterLine (junk ++ '\n' :: rest) = '\n' :: rest := by
  induction junk with
  | nil => rw [List.nil_append, afterLine, if_pos rfl]
  | cons c cs ih =>
    have hc : ¬(c = '\n') := by
      intro hh; exact h (by rw [← hh]; exact List.mem_cons_self c cs)
    rw [List.cons_append, afterLine, if_neg hc]
    exact ih (fun hm => h (List.mem_cons_of_mem c hm))

theorem takeLetters_eq : ∀ (u : List Char),
    u = (takeLetters u).1 ++ (takeLetters u).2 := by
  intro u
  induction u with
  | nil => rfl
  | cons c r ih =>
    by_cases hc : isAsciiLetter c = true
    · rw [takeLetters, if_pos hc]
      exact congrArg (c :: ·) ih
    · rw [takeLetters, if_neg hc]
      rfl

theorem takeLetters_of : ∀ {name : List Char},
    name.all isAsciiLetter = true → ∀ {c : Char} (r : List Char),
    isAsciiLetter c = false → takeLetters (name ++ c :: r) = (name, c :: r) := by
  intro name
  induction name with
  | nil =>
    intro _ c r hc
    rw [List.nil_append, takeLetters, if_neg (by simp [hc])]
  | cons d ds ih =>
    intro hname c r hc
    have hd : isAsciiLetter d = true := by
      have := hname; simp [List.all_cons] at this; exact this.1
    have hds : ds.all isAsciiLetter = true := by
      have := hname; simp [List.all_cons] at this
      exact List.all_eq_true.mpr (fun x hx => this.2 x hx)
    rw [List.cons_append, takeLetters, if_pos hd, ih hds r hc]

theorem takeSpaces_eq : ∀ (u : List Char),
    u = (takeSpaces u).1 ++ (takeSpaces u).2 := by
  intro u
  induction u with
  | nil => rfl
  | cons c r ih =>
    by_cases hc : (c = ' ' || c = '\t') = true
    · rw [takeSpaces, if_pos hc]
      exact congrArg (c :: ·) ih
    · rw [takeSpaces, if_neg hc]
      rfl

theorem takeSUB_eq : ∀ (u : List Char),
    u = (takeSUB u).1 ++ (takeSUB u).2 := by
  intro u
  induction u with
  | nil => rfl
  | cons c r ih =>
    by_cases hc : (c = 's' || c = 'u' || c = 'b') = true
    · rw [takeSUB, if_pos hc]
      exact congrArg (c :: ·) ih
    · rw [takeSUB, if_neg hc]
      rfl

theorem takeLine_sub : ∀ (u : List Char) (c : Char), c ∈ takeLine u → c ∈ u := by
  intro u
  induction u with
  | nil => intro c h; exact absurd h (by simp [takeLine])
  | cons d r ih =>
    intro c h
    by_cases hd : d = '\n'
    · rw [takeLine, if_pos hd] at h; exact absurd h (by simp)
    · rw [takeLine, if_neg hd] at h
      rcases List.mem_cons.mp h with h | h
      · exact h ▸ List.mem_cons_self d r
      · exact List.mem_cons_of_mem d (ih c h)

/-! ### Per-step facts: no match on empty input, no match at a
non-trigger head character -/

theorem stepComment_nil : StepNil stepComment := rfl

theorem stepSymbols_nil : StepNil stepSymbols := rfl

theorem stepAuthor_nil : StepNil stepAuthor := rfl

theorem stepIfFileExists_nil : StepNil stepIfFileExists := rfl

theorem stepHyp_nil : StepNil stepHyp := rfl

theorem stepAccent_nil : StepNil stepAccent := rfl

theorem stepOpener_nil (com : List Char) : StepNil (stepOpener com) := rfl

theorem stepPreserve_nil (env : List Char) : StepNil (stepPreserve env) := rfl

theorem stepDeleteEnv_nil : StepNil stepDeleteEnv := rfl

theorem stepGb4e_nil : StepNil stepGb4e := rfl

theorem stepInline_nil (com : List Char) : StepNil (stepInline com) := rfl

theorem stepLineCmd_nil (com : List Char) : StepNil (stepLineCmd com) := rfl

theorem stepSection_nil : StepNil stepSection := rfl

theorem stepShortTitle_nil : StepNil stepShortTitle := rfl

theorem stepCrossref_nil (w : List Char) : StepNil (stepCrossref w) := by
  cases w with
  | nil => rfl
  | cons d ds => rfl

theorem stepCmdArgs_nil : StepNil stepCmdArgs := rfl

theorem stepCmdBare_nil : StepNil stepCmdBare := rfl

theorem stepBraceNL_nil : StepNil stepBraceNL := rfl

theorem stepTripleNL_nil : StepNil stepTripleNL := rfl

theorem stepComment_none {c : Char} {r : List Char} (h : c ≠ '%') :
    stepComment (c :: r) = none := by
  show (if c = '%' then some (([] : List Char), afterLine r) else none) = none
  rw [if_neg h]

theorem stepSymbols_none {c : Char} {r : List Char} (h1 : c ≠ '$')
    (h2 : c ≠ '|') : stepSymbols (c :: r) = none := by
  show (if c = '$' then some (([] : List Char), r)
    else if c = '|' then
      match r with
      | [] => none
      | d :: r2 => if d = '(' || d = ')' then some ([], r2) else none
    else none) = none
  rw [if_neg h1, if_neg h2]

theorem stepAuthor_none {c : Char} {r : List Char} (h : c ≠ '\\') :
    stepAuthor (c :: r) = none := by
  have h1 : stripLit authorLit (c :: r) = none := stripLit_none_head h
  simp only [stepAuthor, h1]

theorem stepIfFileExists_none {c : Char} {r : List Char} (h : c ≠ '\\') :
    stepIfFileExists (c :: r) = none := by
  have h1 : stripLit ifFileLit (c :: r) = none := stripLit_none_head h
  simp only [stepIfFileExists, h1]

theorem stepHyp_none {c : Char} {r : List Char} (h : c ≠ '\\') :
    stepHyp (c :: r) = none := by
  have h1 : stripLit ('\\' :: ("hyp").toList ++ ['{', '}']) (c :: r) = none :=
    stripLit_none_head h
  simp only [stepHyp, h1]

theorem stepAccent_none {c : Char} {r : List Char} (h : c ≠ '\\') :
    stepAccent (c :: r) = none := by
  have h1 : stripLit ['\\', Char.ofNat 39, 'e'] (c :: r) = none :=
    stripLit_none_head h
  simp only [stepAccent, h1]

theorem stepOpener_none (com : List Char) {c : Char} {r : List Char}
    (h : c ≠ '\\') : stepOpener com (c :: r) = none := by
  have h1 : stripLit (beginMarker com) (c :: r) = none := stripLit_none_head h
  simp only [stepOpener, h1]

theorem stepPreserve_none (env : List Char) {c : Char} {r : List Char}
    (h : c ≠ '\\') : stepPreserve env (c :: r) = none := by
  have h1 : stripLit (beginMarker env) (c :: r) = none := stripLit_none_head h
  simp only [stepPreserve, h1]

theorem stepDeleteEnv_none {c : Char} {r : List Char} (h : c ≠ '\\') :
    stepDeleteEnv (c :: r) = none := by
  have hlc : lowerChar '\\' ≠ lowerChar c := by
    rw [lowerChar_backslash]
    exact fun hh => lowerChar_ne_backslash h hh.symm
  have h1 : stripCI ('\\' :: ("begin").toList ++ ['{']) (c :: r) = none :=
    stripCI_none_head hlc
  simp only [stepDeleteEnv, h1]

theorem stepGb4e_none {c : Char} {r : List Char} (h : c ≠ '\\') :
    stepGb4e (c :: r) = none := by
  have h1 : stripLit ('\\' :: ("ea").toList) (c :: r) = none :=
    stripLit_none_head h
  simp only [stepGb4e, h1]

theorem stepInline_none (com : List Char) {c : Char} {r : List Char}
    (h : c ≠ '\\') : stepInline com (c :: r) = none := by
  have h1 : stripLit ('\\' :: com ++ ['{']) (c :: r) = none :=
    stripLit_none_head h
  simp only [stepInline, h1]

theorem stepLineCmd_none (com : List Char) {c : Char} {r : List Char}
    (h : c ≠ '\\') : stepLineCmd com (c :: r) = none := by
  have h1 : stripLit ('\\' :: com) (c :: r) = none := stripLit_none_head h
  simp only [stepLineCmd, h1]

theorem stepSection_none {c : Char} {r : List Char} (h : c ≠ '\\') :
    stepSection (c :: r) = none := by
  have h1 : stripLit ['\\'] (c :: r) = none := stripLit_none_head h
  simp only [stepSection, h1]

theorem stepShortTitle_none {c : Char} {r : List Char} (h : c ≠ '\\') :
    stepShortTitle (c :: r) = none := by
  have h1 : stripLit ('\\' :: ("title").toList ++ ['[']) (c :: r) = none :=
    stripLit_none_head h
  simp only [stepShortTitle, h1]

theorem stepCmdArgs_none {c : Char} {r : List Char} (h : c ≠ '\\') :
    stepCmdArgs (c :: r) = none := by
  have h1 : stripLit ['\\'] (c :: r) = none := stripLit_none_head h
  simp only [stepCmdArgs, h1]

theorem stepCmdBare_none {c : Char} {r : List Char} (h : c ≠ '\\') :
    stepCmdBare (c :: r) = none := by
  have h1 : stripLit ['\\'] (c :: r) = none := stripLit_none_head h
  simp only [stepCmdBare, h1]

theorem stepCrossref_none_of_no_backslash {w u : List Char} (h : '\\' ∉ u) :
    stepCrossref w u = none := by
  cases hs : stripCI w u with
  | none => simp [stepCrossref, hs]
  | some v =>
    cases v with
    | nil => simp [stepCrossref, hs]
    | cons c v2 =>
      cases v2 with
      | nil => simp [stepCrossref, hs]
      | cons d v3 =>
        have hd : d ∈ u := stripCI_sub hs d (List.mem_cons_of_mem c (List.mem_cons_self d v3))
        have hdb : ¬(d = '\\') := fun hh => h (hh ▸ hd)
        simp [stepCrossref, hs, hdb]

theorem stepBraceNL_none_of_no_brace {u : List Char} (h1 : '{' ∉ u)
    (h2 : '}' ∉ u) (h3 : ']' ∉ u) : stepBraceNL u = none := by
  cases u with
  | nil => rfl
  | cons c r =>
    by_cases hc : c = '\n'
    · subst hc
      have hsp := takeSpaces_eq r
      cases hts : (takeSpaces r).2 with
      | nil => simp [stepBraceNL, hts]
      | cons d w =>
        have hd : d ∈ r := by
          rw [hsp, hts]
          exact List.mem_append_right _ (List.mem_cons_self d w)
        have hd1 : ¬(d = '{') := fun hh => h1 (hh ▸ List.mem_cons_of_mem _ hd)
        have hd2 : ¬(d = '}') := fun hh => h2 (hh ▸ List.mem_cons_of_mem _ hd)
        have hd3 : ¬(d = ']') := fun hh => h3 (hh ▸ List.mem_cons_of_mem _ hd)
        simp [stepBraceNL, hts, hd1, hd2, hd3]
    · have hc1 : ¬(c = '{') := fun hh => h1 (hh ▸ List.mem_cons_self c r)
      have hc2 : ¬(c = '}') := fun hh => h2 (hh ▸ List.mem_cons_self c r)
      have hc3 : ¬(c = ']') := fun hh => h3 (hh ▸ List.mem_cons_self c r)
      simp [stepBraceNL, hc, hc1, hc2, hc3]

theorem stepTripleNL_none {c : Char} {r : List Char} (h : c ≠ '\n') :
    stepTripleNL (c :: r) = none := by
  have h1 : stripLit ['\n', '\n', '\n'] (c :: r) = none := stripLit_none_head h
  simp only [stepTripleNL, h1]

/-! ### Length facts: every match consumes at least one character -/

theorem dropOptChar_len (d : Char) (v : List Char) :
    (dropOptChar d v).length ≤ v.length := by
  cases v with
  | nil => exact Nat.le_refl 0
  | cons c w =>
    by_cases hc : c = d
    · rw [dropOptChar, if_pos hc]; exact Nat.le_succ _
    · rw [dropOptChar, if_neg hc]

theorem dropOptChar_sub (d : Char) (v : List Char) :
    ∀ c, c ∈ dropOptChar d v → c ∈ v := by
  intro c h
  cases v with
  | nil => exact absurd h (by simp [dropOptChar])
  | cons e w =>
    by_cases he : e = d
    · rw [dropOptChar, if_pos he] at h; exact List.mem_cons_of_mem e h
    · rw [dropOptChar, if_neg he] at h; exact h

theorem dropOptChar_pos (d : Char) (w : List Char) :
    dropOptChar d (d :: w) = w := by
  rw [dropOptChar, if_pos rfl]

theorem dropOptChar_neg {d c : Char} (h : c ≠ d) (w : List Char) :
    dropOptChar d (c :: w) = c :: w := by
  rw [dropOptChar, if_neg h]

theorem matchBraceNameCI_len {name w rest : List Char}
    (h : matchBraceNameCI name w = some rest) : rest.length < w.length := by
  cases w with
  | nil => cases h
  | cons c x =>
    rw [matchBraceNameCI] at h
    by_cases hc : c = '{'
    · rw [if_pos hc] at h
      cases hs : stripCI name x with
      | none => rw [hs] at h; cases h
      | some y =>
        rw [hs] at h
        have hxy := stripCI_length hs
        cases y with
        | nil => cases h
        | cons d rest' =>
          have h2 : (if d = '}' then some rest' else none) = some rest := h
          by_cases hd : d = '}'
          · rw [if_pos hd] at h2
            cases h2
            simp at hxy
            simp
            omega
          · rw [if_neg hd] at h2; cases h2
    · rw [if_neg hc] at h; cases h

theorem matchBraceNameCI_sub {name w rest : List Char}
    (h : matchBraceNameCI name w = some rest) : ∀ c, c ∈ rest → c ∈ w := by
  cases w with
  | nil => cases h
  | cons c x =>
    rw [matchBraceNameCI] at h
    by_cases hc : c = '{'
    · rw [if_pos hc] at h
      cases hs : stripCI name x with
      | none => rw [hs] at h; cases h
      | some y =>
        rw [hs] at h
        cases y with
        | nil => cases h
        | cons d rest' =>
          have h2 : (if d = '}' then some rest' else none) = some rest := h
          by_cases hd : d = '}'
          · rw [if_pos hd] at h2
            cases h2
            intro e he
            exact List.mem_cons_of_mem c
              (stripCI_sub hs e (List.mem_cons_of_mem d he))
          · rw [if_neg hd] at h2; cases h2
    · rw [if_neg hc] at h; cases h

theorem matchEndCI_len {name u rest : List Char}
    (h : matchEndCI name u = some rest) : rest.length < u.length := by
  rw [matchEndCI] at h
  cases hs : stripCI ('\\' :: ("end").toList) u with
  | none => rw [hs] at h; cases h
  | some v =>
    rw [hs] at h
    have h1 := stripCI_length hs
    have h2 := matchBraceNameCI_len h
    have h3 := dropOptChar_len ' ' v
    simp at h1
    omega

theorem matchEndCI_sub {name u rest : List Char}
    (h : matchEndCI name u = some rest) : ∀ c, c ∈ rest → c ∈ u := by
  rw [matchEndCI] at h
  cases hs : stripCI ('\\' :: ("end").toList) u with
  | none => rw [hs] at h; cases h
  | some v =>
    rw [hs] at h
    intro c hc
    exact stripCI_sub hs c (dropOptChar_sub ' ' v c (matchBraceNameCI_sub h c hc))

theorem findEnvEndCI_len {name : List Char} : ∀ {x rest : List Char},
    findEnvEndCI name x = some rest → rest.length < x.length := by
  intro x
  induction x with
  | nil => intro rest h; cases h
  | cons c r ih =>
    intro rest h
    rw [findEnvEndCI] at h
    cases hm : matchEndCI name (c :: r) with
    | some q =>
      rw [hm] at h
      cases h
      exact matchEndCI_len hm
    | none =>
      rw [hm] at h
      have := ih h
      exact Nat.lt_succ_of_lt this

theorem findEnvEndCI_sub {name : List Char} : ∀ {x rest : List Char},
    findEnvEndCI name x = some rest → ∀ c, c ∈ rest → c ∈ x := by
  intro x
  induction x with
  | nil => intro rest h; cases h
  | cons c r ih =>
    intro rest h
    rw [findEnvEndCI] at h
    cases hm : matchEndCI name (c :: r) with
    | some q =>
      rw [hm] at h
      cases h
      exact matchEndCI_sub hm
    | none =>
      rw [hm] at h
      intro e he
      exact List.mem_cons_of_mem c (ih h e he)

theorem findEnvEnd_len {env : List Char} : ∀ {v : List Char}
    {q : List Char × List Char}, findEnvEnd env v = some q →
    q.2.length < v.length := by
  intro v
  induction v with
  | nil => intro q h; cases h
  | cons c cs ih =>
    intro q h
    rw [findEnvEnd] at h
    cases hs1 : stripLit (endMarker true env) (c :: cs) with
    | some rest =>
      rw [hs1] at h
      cases h
      have h1 := stripLit_length hs1
      have h2 : 0 < (endMarker true env).length := by rw [endMarker]; simp
      simp at h1
      simp
      omega
    | none =>
      rw [hs1] at h
      cases hs2 : stripLit (endMarker false env) (c :: cs) with
      | some rest =>
        rw [hs2] at h
        cases h
        have h1 := stripLit_length hs2
        have h2 : 0 < (endMarker false env).length := by rw [endMarker]; simp
        simp at h1
        simp
        omega
      | none =>
        rw [hs2] at h
        cases hf : findEnvEnd env cs with
        | none => rw [hf] at h; cases h
        | some q2 =>
          rw [hf] at h
          have h2 : some (c :: q2.1, q2.2) = some q := h
          cases h2
          have := ih hf
          simpa using Nat.lt_succ_of_lt this

theorem findEnvEnd_sub {env : List Char} : ∀ {v : List Char}
    {q : List Char × List Char}, findEnvEnd env v = some q →
    (∀ c, c ∈ q.1 → c ∈ v) ∧ (∀ c, c ∈ q.2 → c ∈ v) := by
  intro v
  induction v with
  | nil => intro q h; cases h
  | cons c cs ih =>
    intro q h
    rw [findEnvEnd] at h
    cases hs1 : stripLit (endMarker true env) (c :: cs) with
    | some rest =>
      rw [hs1] at h
      cases h
      exact ⟨by simp, fun e he => stripLit_sub hs1 e he⟩
    | none =>
      rw [hs1] at h
      cases hs2 : stripLit (endMarker false env) (c :: cs) with
      | some rest =>
        rw [hs2] at h
        cases h
        exact ⟨by simp, fun e he => stripLit_sub hs2 e he⟩
      | none =>
        rw [hs2] at h
        cases hf : findEnvEnd env cs with
        | none => rw [hf] at h; cases h
        | some q2 =>
          rw [hf] at h
          have h2 : some (c :: q2.1, q2.2) = some q := h
          cases h2
          obtain ⟨hq1, hq2⟩ := ih hf
          constructor
          · intro e he
            rcases List.mem_cons.mp he with h3 | h3
            · exact h3 ▸ List.mem_cons_self c cs
            · exact List.mem_cons_of_mem c (hq1 e h3)
          · intro e he
            exact List.mem_cons_of_mem c (hq2 e he)

theorem stepComment_shrinks : StepShrinks stepComment := by
  intro u p h
  cases u with
  | nil => cases h
  | cons c r =>
    by_cases hc : c = '%'
    · subst hc
      have h2 : (if ('%' : Char) = '%' then
          some (([] : List Char), afterLine r) else none) = some p := h
      rw [if_pos rfl] at h2
      cases h2
      have := afterLine_len r
      simp
      omega
    · rw [stepComment_none hc] at h; cases h

theorem stepPreserve_shrinks (env : List Char) : StepShrinks (stepPreserve env) := by
  intro u p h
  cases hs : stripLit (beginMarker env) u with
  | none => rw [stepPreserve, hs] at h; cases h
  | some v =>
    rw [stepPreserve, hs] at h
    have h1 := stripLit_length hs
    have h2 : 0 < (beginMarker env).length := by rw [beginMarker]; simp
    have h3 := findEnvEnd_len h
    omega

theorem stepDeleteEnv_shrinks : StepShrinks stepDeleteEnv := by
  intro u p h
  cases hs : stripCI ('\\' :: ("begin").toList ++ ['{']) u with
  | none =>
    simp only [stepDeleteEnv, hs] at h
    exact Option.noConfusion h
  | some v =>
    simp only [stepDeleteEnv, hs] at h
    have h1 := stripCI_length hs
    by_cases hp : (takeLetters v).1 = []
    · rw [if_pos hp] at h; cases h
    · rw [if_neg hp] at h
      cases hvp : (takeLetters v).2 with
      | nil =>
        simp only [hvp] at h
        exact Option.noConfusion h
      | cons c x =>
        simp only [hvp] at h
        by_cases hc : c = '}'
        · rw [if_pos hc] at h
          cases hf : findEnvEndCI (takeLetters v).1 x with
          | none =>
            simp only [hf, Option.map_none'] at h
            exact Option.noConfusion h
          | some rest =>
            simp only [hf, Option.map_some'] at h
            cases h
            have h3 := findEnvEndCI_len hf
            have h4 : v.length = (takeLetters v).1.length + (takeLetters v).2.length := by
              have := congrArg List.length (takeLetters_eq v)
              simpa using this
            have h5 : (takeLetters v).2.length = x.length + 1 := by rw [hvp]; simp
            simp at h1
            simp
            omega
        · rw [if_neg hc] at h; cases h

theorem stepLineCmd_shrinks (com : List Char) : StepShrinks (stepLineCmd com) := by
  intro u p h
  cases hs : stripLit ('\\' :: com) u with
  | none =>
    simp only [stepLineCmd, hs] at h
    exact Option.noConfusion h
  | some v =>
    simp only [stepLineCmd, hs] at h
    have h1 := stripLit_length hs
    have h2 := dropOptChar_len '*' v
    cases hvp : dropOptChar '*' v with
    | nil =>
      simp only [hvp] at h
      exact Option.noConfusion h
    | cons c x =>
      simp only [hvp] at h
      by_cases hc : c = '{'
      · rw [if_pos hc] at h
        cases hl : lastValidBrace (takeLine x) with
        | none => rw [hl] at h; cases h
        | some i =>
          rw [hl] at h
          cases h
          have h3 : (x.drop (i + 1)).length ≤ x.length := by
            rw [List.length_drop]; omega
          have h4 : x.length + 1 = (dropOptChar '*' v).length := by rw [hvp]; simp
          simp at h1
          simp
          omega
      · rw [if_neg hc] at h; cases h

/-! ### Subset facts: outputs are built from input characters -/

theorem braceGroups_sub : ∀ (fuel : Nat) {u rest : List Char},
    braceGroups fuel u = some rest → ∀ c, c ∈ rest → c ∈ u := by
  intro fuel
  induction fuel with
  | zero => intro u rest h; cases h
  | succ f ih =>
    intro u rest h
    cases u with
    | nil => cases h
    | cons c x =>
      rw [braceGroups] at h
      by_cases hc : c = '{'
      · rw [if_pos hc] at h
        cases hsp : splitBeforeCharNoNL '}' x with
        | none => rw [hsp] at h; cases h
        | some q =>
          simp only [hsp] at h
          obtain ⟨he, -, -⟩ := splitBeforeCharNoNL_eq hsp
          have hq2 : ∀ e, e ∈ q.2 → e ∈ x := by
            intro e hee
            rw [he]
            exact List.mem_append_right q.1 (List.mem_cons_of_mem '}' hee)
          cases hbg : braceGroups f q.2 with
          | some rest2 =>
            simp only [hbg] at h
            cases h
            intro e hee
            exact List.mem_cons_of_mem c (hq2 e (ih hbg e hee))
          | none =>
            simp only [hbg] at h
            cases h
            intro e hee
            exact List.mem_cons_of_mem c (hq2 e hee)
      · rw [if_neg hc] at h; cases h

theorem bracketThenBraces_sub : ∀ (fuel : Nat) {u rest : List Char},
    bracketThenBraces fuel u = some rest → ∀ c, c ∈ rest → c ∈ u := by
  intro fuel
  induction fuel with
  | zero => intro u rest h; cases h
  | succ f ih =>
    intro u rest h
    cases u with
    | nil => cases h
    | cons c r =>
      rw [bracketThenBraces] at h
      by_cases hc : c = ']'
      · rw [if_pos hc] at h
        cases hbg : braceGroups r.length r with
        | some rest2 =>
          rw [hbg] at h
          cases h
          intro e he
          exact List.mem_cons_of_mem c (braceGroups_sub r.length hbg e he)
        | none =>
          rw [hbg] at h
          intro e he
          exact List.mem_cons_of_mem c (ih h e he)
      · rw [if_neg hc] at h
        by_cases hn : c = '\n'
        · rw [if_pos hn] at h; cases h
        · rw [if_neg hn] at h
          intro e he
          exact List.mem_cons_of_mem c (ih h e he)

theorem sectionAfterRun_sub : ∀ {run w rest : List Char},
    sectionAfterRun run w = some rest → ∀ c, c ∈ rest → c ∈ run ++ w := by
  intro run
  induction run with
  | nil =>
    intro w rest h c hc
    exact stripLit_sub h c hc
  | cons d rs ih =>
    intro w rest h c hc
    rw [sectionAfterRun] at h
    cases hrec : sectionAfterRun rs w with
    | some r2 =>
      rw [hrec] at h
      cases h
      exact List.mem_cons_of_mem d (ih hrec c hc)
    | none =>
      rw [hrec] at h
      have := stripLit_sub h c hc
      simpa using this

/-! ### Per-step character provenance (`StepChars`) -/

theorem stepComment_chars : StepChars stepComment [] := by
  intro u p h
  cases u with
  | nil => cases h
  | cons c r =>
    by_cases hc : c = '%'
    · subst hc
      have h2 : (if ('%' : Char) = '%' then
          some (([] : List Char), afterLine r) else none) = some p := h
      rw [if_pos rfl] at h2
      cases h2
      exact ⟨by simp, fun e he => List.mem_cons_of_mem _ (afterLine_sub r e he)⟩
    · rw [stepComment_none hc] at h; cases h

theorem stepSymbols_chars : StepChars stepSymbols [] := by
  intro u p h
  cases u with
  | nil => cases h
  | cons c r =>
    by_cases hc : c = '$'
    · subst hc
      have hstep : stepSymbols ('$' :: r) = some ([], r) := by
        simp [stepSymbols]
      rw [hstep] at h
      cases h
      exact ⟨by simp, fun e he => List.mem_cons_of_mem _ he⟩
    · by_cases hp : c = '|'
      · subst hp
        cases r with
        | nil =>
          have hstep : stepSymbols ['|'] = none := by simp [stepSymbols]
          rw [hstep] at h; cases h
        | cons d r2 =>
          by_cases hd : (d = '(' || d = ')') = true
          · have hstep : stepSymbols ('|' :: d :: r2) = some ([], r2) := by
              simp only [stepSymbols]
              simp [hd]
            rw [hstep] at h
            cases h
            exact ⟨by simp, fun e he =>
              List.mem_cons_of_mem _ (List.mem_cons_of_mem _ he)⟩
          · have hstep : stepSymbols ('|' :: d :: r2) = none := by
              simp only [stepSymbols]
              simp [hd]
            rw [hstep] at h; cases h
      · rw [stepSymbols_none hc hp] at h; cases h

theorem stepAuthor_chars : StepChars stepAuthor [] := by
  intro u p h
  cases hs : stripLit authorLit u with
  | none => simp only [stepAuthor, hs] at h; exact Option.noConfusion h
  | some v =>
    simp only [stepAuthor, hs] at h
    cases hm : matchAuthorTail v with
    | none => rw [hm] at h; exact Option.noConfusion h
    | some n =>
      rw [hm] at h
      have h2 : some (([] : List Char), v.drop n) = some p := by simpa using h
      cases h2
      refine ⟨by simp, fun e he => ?_⟩
      exact stripLit_sub hs e (List.drop_subset n v he)

theorem stepIfFileExists_chars : StepChars stepIfFileExists [] := by
  intro u p h
  cases hs : stripLit ifFileLit u with
  | none => simp only [stepIfFileExists, hs] at h; exact Option.noConfusion h
  | some v =>
    simp only [stepIfFileExists, hs] at h
    cases hm : findSubRest ['}', '{', '}'] v with
    | none => rw [hm] at h; exact Option.noConfusion h
    | some rest =>
      rw [hm] at h
      have h2 : some (([] : List Char), rest) = some p := by simpa using h
      cases h2
      refine ⟨by simp, fun e he => ?_⟩
      obtain ⟨pre, hpre⟩ := findSubRest_exists hm
      exact stripLit_sub hs e (by rw [hpre]; exact List.mem_append_right _ he)

theorem stepHyp_chars : StepChars stepHyp ['-'] := by
  intro u p h
  cases hs : stripLit ('\\' :: ("hyp").toList ++ ['{', '}']) u with
  | none => simp only [stepHyp, hs] at h; exact Option.noConfusion h
  | some rest =>
    simp only [stepHyp, hs] at h
    cases h
    exact ⟨by simp, fun e he => stripLit_sub hs e he⟩

theorem stepAccent_chars : StepChars stepAccent ['é'] := by
  intro u p h
  cases hs : stripLit ['\\', Char.ofNat 39, 'e'] u with
  | none => simp only [stepAccent, hs] at h; exact Option.noConfusion h
  | some rest =>
    simp only [stepAccent, hs] at h
    cases h
    exact ⟨by simp, fun e he => stripLit_sub hs e he⟩

theorem stepOpener_chars (com : List Char) : StepChars (stepOpener com) [] := by
  intro u p h
  cases hs : stripLit (beginMarker com) u with
  | none => simp only [stepOpener, hs] at h; exact Option.noConfusion h
  | some rest =>
    simp only [stepOpener, hs] at h
    cases h
    exact ⟨by simp, fun e he => stripLit_sub hs e he⟩

theorem stepPreserve_chars (env : List Char) : StepChars (stepPreserve env) [] := by
  intro u p h
  cases hs : stripLit (beginMarker env) u with
  | none => simp only [stepPreserve, hs] at h; exact Option.noConfusion h
  | some v =>
    simp only [stepPreserve, hs] at h
    obtain ⟨h1, h2⟩ := findEnvEnd_sub h
    exact ⟨fun e he => Or.inl (stripLit_sub hs e (h1 e he)),
      fun e he => stripLit_sub hs e (h2 e he)⟩

theorem stepDeleteEnv_chars : StepChars stepDeleteEnv [] := by
  intro u p h
  cases hs : stripCI ('\\' :: ("begin").toList ++ ['{']) u with
  | none => simp only [stepDeleteEnv, hs] at h; exact Option.noConfusion h
  | some v =>
    simp only [stepDeleteEnv, hs] at h
    by_cases hp : (takeLetters v).1 = []
    · rw [if_pos hp] at h; exact Option.noConfusion h
    · rw [if_neg hp] at h
      cases hvp : (takeLetters v).2 with
      | nil => simp only [hvp] at h; exact Option.noConfusion h
      | cons c x =>
        simp only [hvp] at h
        by_cases hc : c = '}'
        · rw [if_pos hc] at h
          cases hf : findEnvEndCI (takeLetters v).1 x with
          | none =>
            simp only [hf, Option.map_none'] at h
            exact Option.noConfusion h
          | some rest =>
            simp only [hf, Option.map_some'] at h
            cases h
            refine ⟨by simp, fun e he => ?_⟩
            have h1 : e ∈ x := findEnvEndCI_sub hf e he
            have h2 : e ∈ (takeLetters v).2 := by
              rw [hvp]; exact List.mem_cons_of_mem c h1
            have h3 : e ∈ v := by
              rw [takeLetters_eq v]
              exact List.mem_append_right _ h2
            exact stripCI_sub hs e h3
        · rw [if_neg hc] at h; exact Option.noConfusion h

theorem stepGb4e_chars : StepChars stepGb4e [] := by
  intro u p h
  cases hs : stripLit ('\\' :: ("ea").toList) u with
  | none => simp only [stepGb4e, hs] at h; exact Option.noConfusion h
  | some v =>
    simp only [stepGb4e, hs] at h
    cases hm : findSubRest ['\\', 'z'] v with
    | none => rw [hm] at h; exact Option.noConfusion h
    | some rest =>
      rw [hm] at h
      have h2 : some (([] : List Char), rest) = some p := by simpa using h
      cases h2
      refine ⟨by simp, fun e he => ?_⟩
      obtain ⟨pre, hpre⟩ := findSubRest_exists hm
      exact stripLit_sub hs e (by rw [hpre]; exact List.mem_append_right _ he)

theorem stepInline_chars (com : List Char) : StepChars (stepInline com) [] := by
  intro u p h
  cases hs : stripLit ('\\' :: com ++ ['{']) u with
  | none => simp only [stepInline, hs] at h; exact Option.noConfusion h
  | some v =>
    simp only [stepInline, hs] at h
    obtain ⟨he, -, -⟩ := splitBeforeCharNoNL_eq (by
      have : splitBeforeCharNoNL '}' v = some (p.1, p.2) := by simpa using h
      exact this)
    constructor
    · intro e hee
      exact Or.inl (stripLit_sub hs e (by rw [he]; exact List.mem_append_left _ hee))
    · intro e hee
      exact stripLit_sub hs e
        (by rw [he]; exact List.mem_append_right _ (List.mem_cons_of_mem '}' hee))

theorem stepLineCmd_chars (com : List Char) :
    StepChars (stepLineCmd com) ['\n', ' '] := by
  intro u p h
  cases hs : stripLit ('\\' :: com) u with
  | none => simp only [stepLineCmd, hs] at h; exact Option.noConfusion h
  | some v =>
    simp only [stepLineCmd, hs] at h
    cases hvp : dropOptChar '*' v with
    | nil => simp only [hvp] at h; exact Option.noConfusion h
    | cons c x =>
      simp only [hvp] at h
      by_cases hc : c = '{'
      · rw [if_pos hc] at h
        cases hl : lastValidBrace (takeLine x) with
        | none => rw [hl] at h; exact Option.noConfusion h
        | some i =>
          rw [hl] at h
          cases h
          have hx : ∀ e, e ∈ x → e ∈ u := by
            intro e he
            have h1 : e ∈ dropOptChar '*' v := by
              rw [hvp]; exact List.mem_cons_of_mem c he
            exact stripLit_sub hs e (dropOptChar_sub '*' v e h1)
          constructor
          · intro e he
            rcases List.mem_cons.mp he with h1 | h1
            · exact Or.inr (by simp [h1])
            · rcases List.mem_append.mp h1 with h2 | h2
              · exact Or.inl (hx e (List.take_subset i x h2))
              · have h3 : e = ' ' := by simpa using h2
                exact Or.inr (by simp [h3])
          · intro e he
            exact hx e (List.drop_subset (i + 1) x he)
      · rw [if_neg hc] at h; exact Option.noConfusion h

theorem stepSection_chars : StepChars stepSection ['\n'] := by
  intro u p h
  cases hs : stripLit ['\\'] u with
  | none => simp only [stepSection, hs] at h; exact Option.noConfusion h
  | some v =>
    simp only [stepSection, hs] at h
    cases hsr : sectionAfterRun (takeSUB v).1 (takeSUB v).2 with
    | none => rw [hsr] at h; exact Option.noConfusion h
    | some w =>
      simp only [hsr] at h
      cases hw : dropOptChar '*' w with
      | nil => simp only [hw] at h; exact Option.noConfusion h
      | cons c x =>
        simp only [hw] at h
        by_cases hc : c = '{'
        · rw [if_pos hc] at h
          cases hsp : splitBeforeCharNoNL '}' x with
          | none =>
            simp only [hsp, Option.map_none'] at h
            exact Option.noConfusion h
          | some q =>
            simp only [hsp, Option.map_some'] at h
            cases h
            have hx : ∀ e, e ∈ x → e ∈ u := by
              intro e he
              have h1 : e ∈ w := dropOptChar_sub '*' w e
                (by rw [hw]; exact List.mem_cons_of_mem c he)
              have h2 : e ∈ (takeSUB v).1 ++ (takeSUB v).2 :=
                sectionAfterRun_sub hsr e h1
              have h3 : e ∈ v := by rw [takeSUB_eq v]; exact h2
              exact stripLit_sub hs e h3
            obtain ⟨he1, -, -⟩ := splitBeforeCharNoNL_eq hsp
            constructor
            · intro e he
              rcases List.mem_cons.mp he with h1 | h1
              · exact Or.inr (by simp [h1])
              · rcases List.mem_cons.mp h1 with h2 | h2
                · exact Or.inr (by simp [h2])
                · rcases List.mem_append.mp h2 with h3 | h3
                  · exact Or.inl (hx e (by
                      rw [he1]; exact List.mem_append_left _ h3))
                  · have h4 : e = '\n' := by simpa using h3
                    exact Or.inr (by simp [h4])
            · intro e he
              exact hx e (by
                rw [he1]
                exact List.mem_append_right _ (List.mem_cons_of_mem '}' he))
        · rw [if_neg hc] at h; exact Option.noConfusion h

theorem stepShortTitle_chars : StepChars stepShortTitle [] := by
  intro u p h
  cases hs : stripLit ('\\' :: ("title").toList ++ ['[']) u with
  | none => simp only [stepShortTitle, hs] at h; exact Option.noConfusion h
  | some v =>
    simp only [stepShortTitle, hs] at h
    obtain ⟨he, -⟩ := splitBeforeChar_eq (by
      have : splitBeforeChar ']' v = some (p.1, p.2) := by simpa using h
      exact this)
    constructor
    · intro e hee
      exact Or.inl (stripLit_sub hs e (by rw [he]; exact List.mem_append_left _ hee))
    · intro e hee
      exact stripLit_sub hs e
        (by rw [he]; exact List.mem_append_right _ (List.mem_cons_of_mem ']' hee))

theorem stepCrossref_chars (w : List Char) : StepChars (stepCrossref w) [] := by
  intro u p h
  cases hs : stripCI w u with
  | none => simp only [stepCrossref, hs] at h; exact Option.noConfusion h
  | some v =>
    cases v with
    | nil =>
      simp only [stepCrossref, hs] at h
      exact Option.noConfusion h
    | cons c v2 =>
      by_cases hc : (c = ' ' || c = '~') = true
      · cases v2 with
        | nil =>
          simp only [stepCrossref, hs] at h
          rw [if_pos hc] at h
          exact Option.noConfusion h
        | cons d v3 =>
          simp only [stepCrossref, hs] at h
          rw [if_pos hc] at h
          by_cases hd : d = '\\'
          · rw [if_pos hd] at h
            by_cases hr : (decide (3 ≤ (takeLetters v3).1.length) &&
                ((takeLetters v3).1.map lowerChar).drop
                  ((takeLetters v3).1.length - 3) == ("ref").toList) = true
            · rw [if_pos hr] at h
              cases hvp : (takeLetters v3).2 with
              | nil => simp only [hvp] at h; exact Option.noConfusion h
              | cons e x =>
                simp only [hvp] at h
                by_cases he : e = '{'
                · rw [if_pos he] at h
                  cases hsp : splitBeforeCharNoNL '}' x with
                  | none =>
                    simp only [hsp, Option.map_none'] at h
                    exact Option.noConfusion h
                  | some q =>
                    simp only [hsp, Option.map_some'] at h
                    cases h
                    refine ⟨by simp, fun a ha => ?_⟩
                    obtain ⟨he1, -, -⟩ := splitBeforeCharNoNL_eq hsp
                    have h1 : a ∈ x := by
                      rw [he1]
                      exact List.mem_append_right _ (List.mem_cons_of_mem '}' ha)
                    have h2 : a ∈ (takeLetters v3).2 := by
                      rw [hvp]; exact List.mem_cons_of_mem e h1
                    have h3 : a ∈ v3 := by
                      rw [takeLetters_eq v3]
                      exact List.mem_append_right _ h2
                    have h4 : a ∈ c :: d :: v3 :=
                      List.mem_cons_of_mem c (List.mem_cons_of_mem d h3)
                    exact stripCI_sub hs a h4
                · rw [if_neg he] at h; exact Option.noConfusion h
            · rw [if_neg hr] at h; exact Option.noConfusion h
          · rw [if_neg hd] at h; exact Option.noConfusion h
      · cases v2 with
        | nil =>
          simp only [stepCrossref, hs] at h
          rw [if_neg hc] at h
          exact Option.noConfusion h
        | cons d v3 =>
          simp only [stepCrossref, hs] at h
          rw [if_neg hc] at h
          exact Option.noConfusion h

theorem stepCmdArgs_chars : StepChars stepCmdArgs [] := by
  intro u p h
  cases hs : stripLit ['\\'] u with
  | none => simp only [stepCmdArgs, hs] at h; exact Option.noConfusion h
  | some v =>
    simp only [stepCmdArgs, hs] at h
    by_cases hp : (takeLetters v).1 = []
    · rw [if_pos hp] at h; exact Option.noConfusion h
    · rw [if_neg hp] at h
      have hsub2 : ∀ e, e ∈ (takeLetters v).2 → e ∈ u := by
        intro e he
        exact stripLit_sub hs e (by rw [takeLetters_eq v]; exact List.mem_append_right _ he)
      cases hvp : (takeLetters v).2 with
      | nil => simp only [hvp] at h; exact Option.noConfusion h
      | cons c x =>
        simp only [hvp] at h
        by_cases hc : c = '['
        · rw [if_pos hc] at h
          cases hb : bracketThenBraces x.length x with
          | none =>
            simp only [hb, Option.map_none'] at h
            exact Option.noConfusion h
          | some rest =>
            simp only [hb, Option.map_some'] at h
            cases h
            refine ⟨by simp, fun e he => ?_⟩
            have h1 : e ∈ x := bracketThenBraces_sub x.length hb e he
            exact hsub2 e (by rw [hvp]; exact List.mem_cons_of_mem c h1)
        · rw [if_neg hc] at h
          cases hb : braceGroups (c :: x).length (c :: x) with
          | none =>
            simp only [hb, Option.map_none'] at h
            exact Option.noConfusion h
          | some rest =>
            simp only [hb, Option.map_some'] at h
            cases h
            refine ⟨by simp, fun e he => ?_⟩
            have h1 : e ∈ c :: x := braceGroups_sub _ hb e he
            exact hsub2 e (by rw [hvp]; exact h1)

theorem stepCmdBare_chars : StepChars stepCmdBare [] := by
  intro u p h
  cases hs : stripLit ['\\'] u with
  | none => simp only [stepCmdBare, hs] at h; exact Option.noConfusion h
  | some v =>
    simp only [stepCmdBare, hs] at h
    by_cases hp : (takeLetters v).1 = []
    · rw [if_pos hp] at h; exact Option.noConfusion h
    · rw [if_neg hp] at h
      cases h
      refine ⟨by simp, fun e he => ?_⟩
      exact stripLit_sub hs e (by rw [takeLetters_eq v]; exact List.mem_append_right _ he)

theorem stepBraceNL_chars : StepChars stepBraceNL [' '] := by
  intro u p h
  cases u with
  | nil => cases h
  | cons c r =>
    simp only [stepBraceNL] at h
    by_cases hc : c = '\n'
    · rw [if_pos hc] at h
      cases hts : (takeSpaces r).2 with
      | nil => simp only [hts] at h; exact Option.noConfusion h
      | cons d w2 =>
        simp only [hts] at h
        by_cases hd : (d = '{' || d = '}' || d = ']') = true
        · rw [if_pos hd] at h
          cases h
          refine ⟨by simp, fun e he => ?_⟩
          have h1 : e ∈ (takeSpaces r).2 := by
            rw [hts]; exact List.mem_cons_of_mem d he
          have h2 : e ∈ r := by
            rw [takeSpaces_eq r]; exact List.mem_append_right _ h1
          exact List.mem_cons_of_mem c h2
        · rw [if_neg hd] at h; exact Option.noConfusion h
    · rw [if_neg hc] at h
      by_cases hc2 : (c = '{' || c = '}' || c = ']') = true
      · rw [if_pos hc2] at h
        cases r with
        | nil => exact Option.noConfusion h
        | cons d w2 =>
          have h2 : (if d = '\n' then some ([' '], w2) else none) = some p := h
          by_cases hd : d = '\n'
          · rw [if_pos hd] at h2
            cases h2
            exact ⟨by simp, fun e he =>
              List.mem_cons_of_mem c (List.mem_cons_of_mem d he)⟩
          · rw [if_neg hd] at h2; exact Option.noConfusion h2
      · rw [if_neg hc2] at h; exact Option.noConfusion h

theorem stepTripleNL_chars : StepChars stepTripleNL ['\n'] := by
  intro u p h
  cases hs : stripLit ['\n', '\n', '\n'] u with
  | none => simp only [stepTripleNL, hs] at h; exact Option.noConfusion h
  | some rest =>
    simp only [stepTripleNL, hs] at h
    cases h
    exact ⟨by simp, fun e he => stripLit_sub hs e he⟩

/-! ### No dollar sign survives the symbol-cleanup stage -/

theorem stepSymbols_dollar (r : List Char) :
    stepSymbols ('$' :: r) = some ([], r) := by
  simp [stepSymbols]

theorem stepSymbols_pipe_paren {d : Char} (r2 : List Char)
    (hd : (d = '(' || d = ')') = true) :
    stepSymbols ('|' :: d :: r2) = some ([], r2) := by
  simp only [stepSymbols]
  simp [hd]

theorem stepSymbols_pipe_noparen {d : Char} (r2 : List Char)
    (hd : ¬((d = '(' || d = ')') = true)) :
    stepSymbols ('|' :: d :: r2) = none := by
  simp only [stepSymbols]
  simp [hd]

theorem stepSymbols_pipe_nil : stepSymbols ['|'] = none := by
  simp [stepSymbols]

theorem stepSymbols_shrinks : StepShrinks stepSymbols := by
  intro u p h
  cases u with
  | nil => cases h
  | cons c r =>
    by_cases hc : c = '$'
    · subst hc
      rw [stepSymbols_dollar] at h
      cases h
      simp
    · by_cases hp : c = '|'
      · subst hp
        cases r with
        | nil => rw [stepSymbols_pipe_nil] at h; cases h
        | cons d r2 =>
          by_cases hd : (d = '(' || d = ')') = true
          · rw [stepSymbols_pipe_paren r2 hd] at h
            cases h
            simp
            omega
          · rw [stepSymbols_pipe_noparen r2 hd] at h; cases h
      · rw [stepSymbols_none hc hp] at h; cases h

theorem dollar_not_mem_reSub_symbols_aux :
    ∀ (n : Nat) (t : List Char), t.length ≤ n → '$' ∉ reSub stepSymbols t := by
  intro n
  induction n with
  | zero =>
    intro t h
    have : t = [] := List.length_eq_zero.mp (Nat.le_zero.mp h)
    subst this
    rw [reSub_nil]
    simp
  | succ f ih =>
    intro t h
    cases t with
    | nil => rw [reSub_nil]; simp
    | cons c r =>
      have hr : r.length ≤ f := by simpa using h
      by_cases hc : c = '$'
      · subst hc
        rw [reSub_cons_match stepSymbols stepSymbols_shrinks (stepSymbols_dollar r)]
        simpa using ih r hr
      · by_cases hp : c = '|'
        · subst hp
          cases r with
          | nil =>
            rw [reSub_cons_skip stepSymbols stepSymbols_pipe_nil]
            simp [reSub_nil]
          | cons d r2 =>
            by_cases hd : (d = '(' || d = ')') = true
            · rw [reSub_cons_match stepSymbols stepSymbols_shrinks
                (stepSymbols_pipe_paren r2 hd)]
              have hr2 : r2.length ≤ f := by simp at hr; omega
              simpa using ih r2 hr2
            · rw [reSub_cons_skip stepSymbols (stepSymbols_pipe_noparen r2 hd)]
              have := ih (d :: r2) hr
              simp only [List.mem_cons] at *
              rintro (h1 | h1)
              · exact absurd h1 (by decide)
              · exact this h1
        · rw [reSub_cons_skip stepSymbols (stepSymbols_none hc hp)]
          have := ih r hr
          simp only [List.mem_cons] at *
          rintro (h1 | h1)
          · exact hc h1.symm
          · exact this h1

theorem dollar_not_mem_reSub_symbols (t : List Char) :
    '$' ∉ reSub stepSymbols t :=
  dollar_not_mem_reSub_symbols_aux t.length t le_rfl

theorem not_mem_foldl {d : Char} {α : Type} {f : List Char → α → List Char}
    (hf : ∀ x t, d ∉ t → d ∉ f t x) :
    ∀ (L : List α) (t : List Char), d ∉ t → d ∉ L.foldl f t := by
  intro L
  induction L with
  | nil => intro t h; exact h
  | cons x xs ih => intro t h; exact ih (f t x) (hf x t h)

/-- C10: for every input text, the output of `detex` contains no `$`
character — the math-delimiter cleanup (stage 2, `re.sub(r"(\$)|...", "", …)`)
deletes every dollar sign, and no later rewrite stage can reintroduce one:
every later replacement inserts only fixed dollar-free text (`-`, `é`,
newlines, spaces) or substrings captured from the already dollar-free
intermediate string. -/
theorem detex_no_dollar (t : List Char) : '$' ∉ detex t := by
  simp only [detex]
  refine not_mem_reSub stepTripleNL_chars ?_ (by decide)
  refine not_mem_reSub stepBraceNL_chars ?_ (by decide)
  refine not_mem_reSub stepCmdBare_chars ?_ (by decide)
  refine not_mem_reSub stepCmdArgs_chars ?_ (by decide)
  refine not_mem_foldl
    (fun w t' h => not_mem_reSub (stepCrossref_chars w) h (by decide)) _ _ ?_
  refine not_mem_reSub stepShortTitle_chars ?_ (by decide)
  refine not_mem_reSub stepSection_chars ?_ (by decide)
  refine not_mem_foldl
    (fun com t' h => not_mem_reSub (stepLineCmd_chars com) h (by decide)) _ _ ?_
  refine not_mem_foldl
    (fun com t' h => not_mem_reSub (stepInline_chars com) h (by decide)) _ _ ?_
  refine not_mem_reSub stepGb4e_chars ?_ (by decide)
  refine not_mem_reSub stepDeleteEnv_chars ?_ (by decide)
  refine not_mem_foldl
    (fun env t' h => not_mem_reSub (stepPreserve_chars env) h (by decide)) _ _ ?_
  refine not_mem_foldl
    (fun com t' h => not_mem_reSub (stepOpener_chars com) h (by decide)) _ _ ?_
  refine not_mem_reSub stepAccent_chars ?_ (by decide)
  refine not_mem_reSub stepHyp_chars ?_ (by decide)
  refine not_mem_reSub stepIfFileExists_chars ?_ (by decide)
  refine not_mem_reSub stepAuthor_chars ?_ (by decide)
  exact dollar_not_mem_reSub_symbols (reSub stepComment t)

/-! ### Claim theorems: concrete scenarios, warning logic, chapter sort,
totality, and counterexamples -/

/-- C4: the `detex` transform is total and pure.  In this shallow embedding
`detex` is a Lean function defined by total (fuelled structural) recursion:
it is defined on every input string, has no side effects, and its result
depends only on its input — two calls on equal inputs return equal outputs,
which is the statement below.  (The Python function is a chain of `re.sub`
calls, which never raise on any `str` input.) -/
theorem detex_total_deterministic : ∀ t u : List Char, t = u → detex t = detex u :=
  fun _ _ h => h ▸ rfl

/-- Witness for C4 at a concrete input. -/
theorem detex_total_deterministic_witness :
    detex (("hello").toList) = detex (("hello").toList) :=
  detex_total_deterministic _ _ rfl

/-- C5: in `main`, a warning is printed for a file if and only if the stripped
output length is strictly less than `threshold` times the original length
(`if len(detexed) < len(text)*threshold`), and the warning names the offending
file and the threshold as a percentage (`int(threshold*100)` followed by `%`).
In particular with original length 1000, threshold 0.5 and stripped length 400
the warning text is exactly `"Warning: Less than 50% of the content remains
for file " ++ fi` (naming the file and "50%"), while stripped length 600
produces no warning. -/
theorem main_warning_spec :
    (∀ (fi text : List Char) (threshold : ℚ),
        (mainProcessFile fi text threshold).2 = some (warning_message threshold fi)
          ↔ ((detex text).length : ℚ) < threshold * (text.length : ℚ))
    ∧ (∀ fi : List Char, mainWarning 1000 400 (1/2) fi
        = some (("Warning: Less than 50% of the content remains for file ").toList ++ fi))
    ∧ (∀ fi : List Char, mainWarning 1000 600 (1/2) fi = none) := by
  refine ⟨?_, ?_, ?_⟩
  · intro fi text threshold
    simp only [mainProcessFile, mainWarning]
    split
    · simp [*]
    · simp [*]
  · intro fi
    have h1 : pyInt ((1/2 : ℚ) * 100) = 50 := by
      have h : ((1/2 : ℚ) * 100) = 50 := by norm_num
      rw [pyInt, h, if_pos (by norm_num)]
      norm_num [Rat.floor]
    have h2 : intRepr 50 = ('5' :: ['0']) := by decide
    have h3 : ("Warning: Less than ").toList ++ ('5' :: ['0']) ++
        ("% of the content remains for file ").toList
        = ("Warning: Less than 50% of the content remains for file ").toList := by
      decide
    rw [mainWarning, if_pos (by norm_num), warning_message, h1, h2, h3]
  · intro fi
    rw [mainWarning, if_neg (by norm_num)]

/-- C6: evaluation of `_sort_chapters` at the claim's input
`["02.tex", "conclusion.tex", "intro.tex", "01.tex"]`.  The claim (and the
function's own docstring, "alphabetically, but starting with the
introduction") expects the intro-matching files `"01.tex"` and `"intro.tex"`
first, i.e. `["01.tex", "intro.tex", "02.tex", "conclusion.tex"]`.  The code
instead returns `["01.tex", "02.tex", "intro.tex", "conclusion.tex"]`:
the `for f in files:` loop mutates `files` with `remove`/`insert`/`append`
while iterating, so the iteration skips elements (here `"intro.tex"` is never
examined, and `"conclusion.tex"` is processed twice), leaving `"intro.tex"`
after `"02.tex"`. -/
theorem sort_chapters_mutation_bug :
    sort_chapters (["02.tex", "conclusion.tex", "intro.tex", "01.tex"].map
      String.toList)
      = ["01.tex", "02.tex", "intro.tex", "conclusion.tex"].map String.toList := by
  decide

/-- C8: on the concrete input
`"Hello \textbf{world}! % comment\n\begin{figure}junk\end{figure}"`
(one real newline), the output of `detex` is exactly `"Hello world! \n"`:
it contains `"Hello world!"`, contains none of `"comment"`, `"junk"`,
`"figure"`, and contains no backslash at all (hence no backslash-prefixed
command token). -/
theorem detex_concrete_scenario :
    detex (("Hello \\textbf\x7bworld\x7d! % comment\n\\begin\x7bfigure\x7djunk\\end\x7bfigure\x7d").toList)
        = ("Hello world! \n").toList
    ∧ containsSub (("Hello world!").toList) (("Hello world! \n").toList) = true
    ∧ containsSub (("comment").toList) (("Hello world! \n").toList) = false
    ∧ containsSub (("junk").toList) (("Hello world! \n").toList) = false
    ∧ containsSub (("figure").toList) (("Hello world! \n").toList) = false
    ∧ (("Hello world! \n").toList).all (fun c => c ≠ '\\') = true := by
  decide

/-- Counterexample to C1 as stated: the input consists of an environment block
named `figure` (begin marker, enclosed content
`\begin{figure}x\end{figure}y`, end marker), yet the enclosed content
character `y` survives in the output.  The non-greedy deletion pairs the
first begin marker with the *nearest* end marker, so for nested environments
of the same name the content between the inner and outer end markers is not
deleted (the leftover `\end{figure}` is later eaten by the residual-command
rule, but `y` remains). -/
theorem detex_env_nested_cex :
    detex (("\\begin\x7bfigure\x7d\\begin\x7bfigure\x7dx\\end\x7bfigure\x7dy\\end\x7bfigure\x7d").toList)
      = ['y'] := by
  decide

/-- Counterexample to C2 as stated: this input contains a quote environment
with inner text `hi`, but the whole line is consumed by the comment-removal
stage (stage 1) before quote preservation runs, so the output is empty and
the inner text is lost. -/
theorem detex_quote_comment_cex :
    detex (("%\\begin\x7bquote\x7dhi\\end\x7bquote\x7d").toList) = [] := by
  decide

/-- Counterexample to C3 as stated: the input `"$x%y"` contains an unescaped
comment marker; the characters preceding it on the line are `"$x"`, but the
output of `detex` is `"x"` — the `$` before the marker is *not* preserved in
the output, because the later math-delimiter stage deletes it. -/
theorem detex_comment_prefix_cex :
    detex (['$', 'x', '%', 'y']) = ['x'] := by
  decide

/-- Counterexample to C7 as stated: on `"\title{a}b\}"` the code's greedy
argument match runs up to the *last* closing brace not followed by another
closing brace, with no regard to escaping: the final (escaped) `\}`'s brace is
consumed as the argument delimiter and the capture is `a}b\`, yielding
`"\na}b\ "` (the backslash survives because it is not followed by letters).
Under the claim's "last unescaped closing brace" reading the argument would
have ended at the brace after `a`. -/
theorem line_replacement_cex :
    detex (['\\', 't', 'i', 't', 'l', 'e', '{', 'a', '}', 'b', '\\', '}'])
      = ['\n', 'a', '}', 'b', '\\', ' '] := by
  decide

/-- Counterexample to C9 as stated: for the input `"||(("`, the first pass
removes the middle `|(` pair, leaving `"|("` — which a second pass deletes
entirely.  The second application thus removes further non-whitespace
content, so `detex ∘ detex` differs from `detex` by more than whitespace. -/
theorem detex_near_fixed_point_cex :
    detex (['|', '|', '(', '(']) = ['|', '(']
    ∧ detex (['|', '(']) = []
    ∧ dropWS (detex (detex (['|', '|', '(', '(']))) ≠
        dropWS (detex (['|', '|', '(', '('])) := by
  decide

/-- C3 (amended): the comment-removal stage (`re.sub("%.*", "", text)`,
the first rewrite of `detex`) deletes exactly the characters from the *first*
comment marker on a line (escaped or not — the pattern has no escaping check)
through the end of that line, and preserves the characters before that marker
in its own output; later pipeline stages may still transform or delete those
preceding characters (see the counterexample), so preservation holds at this
stage, not for the full `detex` output. -/
theorem remove_comments_amended (pre junk rest : List Char)
    (h1 : '\n' ∉ pre) (h2 : '%' ∉ pre) (h3 : '\n' ∉ junk) :
    reSub stepComment (pre ++ '%' :: (junk ++ '\n' :: rest))
      = pre ++ '\n' :: reSub stepComment rest := by
  have hskip : ∀ n, n < pre.length →
      stepComment (pre.drop n ++ ('%' :: (junk ++ '\n' :: rest))) = none :=
    stepNone_on_prefix _ (fun c r hc => stepComment_none (mem_concrete_ne hc h2))
  rw [reSub_append stepComment hskip]
  congr 1
  have hstep : stepComment ('%' :: (junk ++ '\n' :: rest))
      = some ([], '\n' :: rest) := by
    show (if ('%' : Char) = '%' then
      some (([] : List Char), afterLine (junk ++ '\n' :: rest)) else none)
      = some ([], '\n' :: rest)
    rw [if_pos rfl, afterLine_append h3]
  rw [reSub_cons_match stepComment stepComment_shrinks hstep]
  rw [reSub_cons_skip stepComment (stepComment_none (by decide))]
  simp

/-- Witness for C3 (amended) at a concrete instance:
`"ab%cd\ne"` becomes `"ab\n" ++ …`. -/
theorem remove_comments_witness :
    reSub stepComment (("ab").toList ++ '%' :: (("cd").toList ++ '\n' :: ("e").toList))
      = ("ab").toList ++ '\n' :: reSub stepComment (("e").toList) :=
  remove_comments_amended _ _ _ (by decide) (by decide) (by decide)

/-! ### Facts for the line-replacement rule -/

theorem takeLine_append_nl : ∀ {m : List Char}, '\n' ∉ m →
    ∀ (rest : List Char), takeLine (m ++ '\n' :: rest) = m := by
  intro m
  induction m with
  | nil => intro _ rest; rw [List.nil_append, takeLine, if_pos rfl]
  | cons c cs ih =>
    intro h rest
    have hc : ¬(c = '\n') := by
      intro hh; exact h (by rw [← hh]; exact List.mem_cons_self c cs)
    rw [List.cons_append, takeLine, if_neg hc,
      ih (fun hm => h (List.mem_cons_of_mem c hm)) rest]

theorem lastValidBrace_propagate : ∀ (m : List Char) {t : List Char} {i : Nat},
    lastValidBrace t = some i → lastValidBrace (m ++ t) = some (m.length + i) := by
  intro m
  induction m with
  | nil => intro t i h; simpa using h
  | cons c cs ih =>
    intro t i h
    rw [List.cons_append, lastValidBrace, ih h]
    simp
    omega

theorem lastValidBrace_final : ∀ {m : List Char}, '}' ∉ m →
    lastValidBrace (m ++ ['}']) = some m.length := by
  intro m
  induction m with
  | nil => intro _; decide
  | cons c cs ih =>
    intro h
    have hc : ¬(c = '}') := by
      intro hh; exact h (by rw [← hh]; exact List.mem_cons_self c cs)
    rw [List.cons_append, lastValidBrace, ih (fun hm => h (List.mem_cons_of_mem c hm))]
    simp

theorem take_len_append : ∀ (y z : List Char), (y ++ z).take y.length = y := by
  intro y
  induction y with
  | nil => intro z; rfl
  | cons c cs ih => intro z; simpa using ih z

theorem drop_len_append : ∀ (y z : List Char), (y ++ z).drop y.length = z := by
  intro y
  induction y with
  | nil => intro z; rfl
  | cons c cs ih => intro z; simpa using ih z

/-- C7 (amended): for every occurrence of a line-replacement command (`title`,
`abstract`, `caption`, `chapter`, with optional star) whose argument lies on
one line, the substitution replaces the whole command and its argument by the
argument text alone, preceded by a newline and followed by a trailing space;
the argument match is greedy up to the last closing brace on the line —
escaped or not, the pattern performs no escaping check — that is not
immediately followed by another closing brace.  Below the line holds
`{a}b}`: the capture is the greedy `a}b` (demonstrating that an inner brace
not followed by `}` does not end the argument), and when `b` is empty the
brace pair `}}` shows that a brace followed by another `}` is not consumed as
the delimiter. -/
theorem line_replacement_amended (com a b rest : List Char) (star : Bool)
    (hcom : com ∈ to_replace_line)
    (ha1 : '\n' ∉ a) (ha2 : '}' ∉ a) (hb1 : '\n' ∉ b) (hb2 : '}' ∉ b) :
    reSub (stepLineCmd com)
      ('\\' :: (com ++ ((if star then ['*'] else []) ++
        ('{' :: (a ++ ('}' :: (b ++ ('}' :: ('\n' :: rest)))))))))
      = '\n' :: ((a ++ ('}' :: b)) ++ (' ' :: ('\n' :: reSub (stepLineCmd com) rest))) := by
  have hx : a ++ ('}' :: (b ++ ('}' :: ('\n' :: rest))))
      = (a ++ ('}' :: (b ++ ['}']))) ++ '\n' :: rest := by simp
  have hnl : '\n' ∉ a ++ ('}' :: (b ++ ['}'])) := by
    intro hm
    rcases List.mem_append.mp hm with h | h
    · exact ha1 h
    · rcases List.mem_cons.mp h with h | h
      · exact absurd h (by decide)
      · rcases List.mem_append.mp h with h | h
        · exact hb1 h
        · exact absurd h (by decide)
  have hline : takeLine (a ++ ('}' :: (b ++ ('}' :: ('\n' :: rest)))))
      = a ++ ('}' :: (b ++ ['}'])) := by
    rw [hx]
    exact takeLine_append_nl hnl rest
  have hbrace : lastValidBrace (a ++ ('}' :: (b ++ ['}'])))
      = some (a.length + 1 + b.length) := by
    have h1 : lastValidBrace (b ++ ['}']) = some b.length := lastValidBrace_final hb2
    have h2 := lastValidBrace_propagate (a ++ ['}']) h1
    have h3 : (a ++ ['}']) ++ (b ++ ['}']) = a ++ ('}' :: (b ++ ['}'])) := by simp
    rw [h3] at h2
    rw [h2]
    simp <;> omega
  have htake : (a ++ ('}' :: (b ++ ('}' :: ('\n' :: rest))))).take
      (a.length + 1 + b.length) = a ++ ('}' :: b) := by
    have hy : a ++ ('}' :: (b ++ ('}' :: ('\n' :: rest))))
        = (a ++ ('}' :: b)) ++ ('}' :: ('\n' :: rest)) := by simp
    have hlen : (a ++ ('}' :: b)).length = a.length + 1 + b.length := by
      simp <;> omega
    rw [hy, ← hlen, take_len_append]
  have hdrop : (a ++ ('}' :: (b ++ ('}' :: ('\n' :: rest))))).drop
      (a.length + 1 + b.length + 1) = '\n' :: rest := by
    have hy : a ++ ('}' :: (b ++ ('}' :: ('\n' :: rest))))
        = ((a ++ ('}' :: b)) ++ ['}']) ++ ('\n' :: rest) := by simp
    have hlen : ((a ++ ('}' :: b)) ++ ['}']).length = a.length + 1 + b.length + 1 := by
      simp <;> omega
    rw [hy, ← hlen, drop_len_append]
  have hstrip : stripLit ('\\' :: com)
      ('\\' :: (com ++ ((if star then ['*'] else []) ++
        ('{' :: (a ++ ('}' :: (b ++ ('}' :: ('\n' :: rest))))))))) =
      some ((if star then ['*'] else []) ++
        ('{' :: (a ++ ('}' :: (b ++ ('}' :: ('\n' :: rest))))))) := by
    have := stripLit_self ('\\' :: com)
      ((if star then ['*'] else []) ++
        ('{' :: (a ++ ('}' :: (b ++ ('}' :: ('\n' :: rest)))))))
    simpa using this
  have hdo : dropOptChar '*' ((if star then ['*'] else []) ++
      ('{' :: (a ++ ('}' :: (b ++ ('}' :: ('\n' :: rest)))))))
      = '{' :: (a ++ ('}' :: (b ++ ('}' :: ('\n' :: rest))))) := by
    cases star with
    | true => simpa using dropOptChar_pos '*' _
    | false => simpa using dropOptChar_neg (by decide) _
  have hstep : stepLineCmd com
      ('\\' :: (com ++ ((if star then ['*'] else []) ++
        ('{' :: (a ++ ('}' :: (b ++ ('}' :: ('\n' :: rest)))))))))
      = some ('\n' :: (a ++ ('}' :: b)) ++ [' '], '\n' :: rest) := by
    simp only [stepLineCmd, hstrip, hdo, if_true, hline, hbrace]
    rw [htake, hdrop]
  rw [reSub_cons_match (stepLineCmd com) (stepLineCmd_shrinks com) hstep]
  rw [reSub_cons_skip (stepLineCmd com) (stepLineCmd_none com (by decide))]
  simp

/-- Witness for C7 (amended) at a concrete instance: `\title*{x}y}` followed
by a newline and `z`. -/
theorem line_replacement_witness :
    reSub (stepLineCmd (("title").toList))
      ('\\' :: ((("title").toList) ++ ((if true then ['*'] else []) ++
        ('{' :: ((("x").toList) ++ ('}' :: ((("y").toList) ++ ('}' :: ('\n' :: ("z").toList)))))))))
      = '\n' :: (((("x").toList) ++ ('}' :: (("y").toList))) ++
          (' ' :: ('\n' :: reSub (stepLineCmd (("title").toList)) (("z").toList)))) :=
  line_replacement_amended _ _ _ _ true (by decide) (by decide) (by decide)
    (by decide) (by decide)

/-! ### Facts about environment markers -/

theorem beginMarker_eq (name : List Char) :
    beginMarker name = ['\\', 'b', 'e', 'g', 'i', 'n', '{'] ++ (name ++ ['}']) := by
  simp [beginMarker]

theorem endMarker_eq (sp : Bool) (name : List Char) :
    endMarker sp name = ['\\', 'e', 'n', 'd'] ++
      ((if sp then [' '] else []) ++ ('{' :: (name ++ ['}']))) := by
  cases sp <;> simp [endMarker]

theorem stripLit_append_common : ∀ (P p' u' : List Char),
    stripLit (P ++ p') (P ++ u') = stripLit p' u' := by
  intro P
  induction P with
  | nil => intro p' u'; rfl
  | cons c cs ih =>
    intro p' u'
    rw [List.cons_append, List.cons_append, stripLit, if_pos rfl]
    exact ih p' u'

theorem stripLit_backslash_mismatch {cp cu : Char} (hne : cp ≠ cu)
    (P U : List Char) : stripLit ('\\' :: cp :: P) ('\\' :: cu :: U) = none := by
  rw [stripLit, if_pos rfl]
  exact stripLit_none_head (fun hh => hne hh.symm)

theorem stripLit_letters_brace : ∀ {com name : List Char},
    com.all isAsciiLetter = true → name.all isAsciiLetter = true →
    name ≠ com → ∀ (Z : List Char),
    stripLit (com ++ ['}']) (name ++ '}' :: Z) = none := by
  intro com
  induction com with
  | nil =>
    intro name _ hname hne Z
    cases name with
    | nil => exact absurd rfl hne
    | cons c cs =>
      have hc : isAsciiLetter c = true := by
        simp [List.all_cons] at hname; exact hname.1
      rw [List.nil_append, List.cons_append]
      exact stripLit_none_head (letter_ne_of_not_letter hc (by decide))
  | cons d ds ih =>
    intro name hcom hname hne Z
    have hd : isAsciiLetter d = true := by
      simp [List.all_cons] at hcom; exact hcom.1
    have hds : ds.all isAsciiLetter = true := by
      simp [List.all_cons] at hcom
      exact List.all_eq_true.mpr (fun x hx => hcom.2 x hx)
    cases name with
    | nil =>
      rw [List.nil_append, List.cons_append]
      exact stripLit_none_head
        (fun hh => absurd hd (by rw [← hh]; decide))
    | cons c cs =>
      by_cases hc : d = c
      · subst hc
        have hcs : cs.all isAsciiLetter = true := by
          simp [List.all_cons] at hname
          exact List.all_eq_true.mpr (fun x hx => hname.2 x hx)
        have hne2 : cs ≠ ds := fun hh => hne (by rw [hh])
        rw [List.cons_append, List.cons_append, stripLit, if_pos rfl]
        exact ih hds hcs hne2 Z
      · rw [List.cons_append, List.cons_append]
        exact stripLit_none_head (fun hh => hc hh.symm)

theorem not_mem_beginMarker {c : Char} {name : List Char}
    (hl : name.all isAsciiLetter = true) (hc : isAsciiLetter c = false)
    (h1 : c ≠ '\\') (h3 : c ≠ '{') (h4 : c ≠ '}') : c ∉ beginMarker name := by
  rw [beginMarker_eq]
  intro hm
  rcases List.mem_append.mp hm with h | h
  · have h6 : c = '\\' ∨ c = 'b' ∨ c = 'e' ∨ c = 'g' ∨ c = 'i' ∨ c = 'n' ∨
        c = '{' := by simpa using h
    rcases h6 with h6 | h6 | h6 | h6 | h6 | h6 | h6
    · exact h1 h6
    · rw [h6] at hc; exact absurd hc (by decide)
    · rw [h6] at hc; exact absurd hc (by decide)
    · rw [h6] at hc; exact absurd hc (by decide)
    · rw [h6] at hc; exact absurd hc (by decide)
    · rw [h6] at hc; exact absurd hc (by decide)
    · exact h3 h6
  · rcases List.mem_append.mp h with h | h
    · have := (List.all_eq_true.mp hl) c h
      rw [this] at hc; cases hc
    · exact h4 (by simpa using h)

theorem not_mem_endMarker {c : Char} {sp : Bool} {name : List Char}
    (hl : name.all isAsciiLetter = true) (hc : isAsciiLetter c = false)
    (h1 : c ≠ '\\') (h3 : c ≠ '{') (h4 : c ≠ '}') (h5 : c ≠ ' ') :
    c ∉ endMarker sp name := by
  rw [endMarker_eq]
  intro hm
  rcases List.mem_append.mp hm with h | h
  · have h6 : c = '\\' ∨ c = 'e' ∨ c = 'n' ∨ c = 'd' := by simpa using h
    rcases h6 with h6 | h6 | h6 | h6
    · exact h1 h6
    · rw [h6] at hc; exact absurd hc (by decide)
    · rw [h6] at hc; exact absurd hc (by decide)
    · rw [h6] at hc; exact absurd hc (by decide)
  · rcases List.mem_append.mp h with h | h
    · cases sp with
      | true => exact h5 (by simpa using h)
      | false => exact absurd h (by simp)
    · rcases List.mem_cons.mp h with h | h
      · exact h3 h
      · rcases List.mem_append.mp h with h | h
        · have := (List.all_eq_true.mp hl) c h
          rw [this] at hc; cases hc
        · exact h4 (by simpa using h)

theorem beginMarker_cons (name : List Char) :
    beginMarker name = '\\' :: (['b', 'e', 'g', 'i', 'n', '{'] ++ (name ++ ['}'])) := by
  simp [beginMarker]

theorem endMarker_cons (sp : Bool) (name : List Char) :
    endMarker sp name = '\\' :: (['e', 'n', 'd'] ++
      ((if sp then [' '] else []) ++ ('{' :: (name ++ ['}'])))) := by
  cases sp <;> simp [endMarker]

theorem beginMarker_tail_no_bs {name : List Char}
    (hl : name.all isAsciiLetter = true) :
    '\\' ∉ ['b', 'e', 'g', 'i', 'n', '{'] ++ (name ++ ['}']) := by
  intro hm
  rcases List.mem_append.mp hm with h | h
  · exact absurd h (by decide)
  · rcases List.mem_append.mp h with h | h
    · have := (List.all_eq_true.mp hl) _ h
      exact absurd this (by decide)
    · exact absurd h (by decide)

theorem endMarker_tail_no_bs {sp : Bool} {name : List Char}
    (hl : name.all isAsciiLetter = true) :
    '\\' ∉ ['e', 'n', 'd'] ++
      ((if sp then [' '] else []) ++ ('{' :: (name ++ ['}']))) := by
  intro hm
  rcases List.mem_append.mp hm with h | h
  · exact absurd h (by decide)
  · rcases List.mem_append.mp h with h | h
    · cases sp with
      | true => exact absurd h (by decide)
      | false => exact absurd h (by simp)
    · rcases List.mem_cons.mp h with h | h
      · exact absurd h (by decide)
      · rcases List.mem_append.mp h with h | h
        · have := (List.all_eq_true.mp hl) _ h
          exact absurd this (by decide)
        · exact absurd h (by decide)

theorem stepNone_on_prefix_cons {step : List Char → Option (List Char × List Char)}
    {hd : Char} {tl X : List Char}
    (hmatch : step ((hd :: tl) ++ X) = none)
    (hA : ∀ c r, c ≠ '\\' → step (c :: r) = none)
    (htl : '\\' ∉ tl) :
    ∀ n, n < (hd :: tl).length → step ((hd :: tl).drop n ++ X) = none := by
  intro n hn
  cases n with
  | zero => simpa using hmatch
  | succ m =>
    have heq : (hd :: tl).drop (m + 1) = tl.drop m := rfl
    rw [heq]
    exact stepNone_on_prefix X
      (fun c r hc => hA c r (fun hh => htl (hh ▸ hc))) m (by simpa using hn)

/-- A step that matches only at a backslash, does not match at the begin
marker, and does not match at the end marker, matches nowhere in
`s1 ++ beginMarker nameB ++ body ++ endMarker sp nameE ++ s2` when `s1`,
`body`, `s2` contain no backslash. -/
theorem noStart_envText {step : List Char → Option (List Char × List Char)}
    (h0 : StepNil step)
    (hA : ∀ c r, c ≠ '\\' → step (c :: r) = none)
    {nameB nameE s1 body s2 : List Char} {sp : Bool}
    (hBl : nameB.all isAsciiLetter = true) (hEl : nameE.all isAsciiLetter = true)
    (hs1 : '\\' ∉ s1) (hbody : '\\' ∉ body) (hs2 : '\\' ∉ s2)
    (hB : step (beginMarker nameB ++ (body ++ (endMarker sp nameE ++ s2))) = none)
    (hE : step (endMarker sp nameE ++ s2) = none) :
    NoStart step (s1 ++ (beginMarker nameB ++ (body ++ (endMarker sp nameE ++ s2)))) := by
  apply noStart_append
  · exact stepNone_on_prefix _ (fun c r hc => hA c r (fun hh => hs1 (hh ▸ hc)))
  rw [beginMarker_cons]
  apply noStart_append
  · exact stepNone_on_prefix_cons (by rw [← beginMarker_cons]; exact hB) hA
      (beginMarker_tail_no_bs hBl)
  apply noStart_append
  · exact stepNone_on_prefix _ (fun c r hc => hA c r (fun hh => hbody (hh ▸ hc)))
  rw [endMarker_cons]
  apply noStart_append
  · exact stepNone_on_prefix_cons (by rw [← endMarker_cons]; exact hE) hA
      (endMarker_tail_no_bs hEl)
  exact noStart_of_heads h0 (fun c r hc => hA c r (fun hh => hs2 (hh ▸ hc)))

theorem stripLit_at_begin {pat2 : Char} {P name Z : List Char} (hne : pat2 ≠ 'b') :
    stripLit ('\\' :: pat2 :: P) (beginMarker name ++ Z) = none := by
  rw [beginMarker_cons]
  have h2 : ('\\' :: (['b', 'e', 'g', 'i', 'n', '{'] ++ (name ++ ['}']))) ++ Z
      = '\\' :: 'b' :: ((['e', 'g', 'i', 'n', '{'] ++ (name ++ ['}'])) ++ Z) := by
    simp
  rw [h2]
  exact stripLit_backslash_mismatch hne _ _

theorem stripLit_at_end {pat2 : Char} {P : List Char} {sp : Bool}
    {name Z : List Char} (hne : pat2 ≠ 'e') :
    stripLit ('\\' :: pat2 :: P) (endMarker sp name ++ Z) = none := by
  rw [endMarker_cons]
  have h2 : ('\\' :: (['e', 'n', 'd'] ++
      ((if sp then [' '] else []) ++ ('{' :: (name ++ ['}']))))) ++ Z
      = '\\' :: 'e' :: ((['n', 'd'] ++
        ((if sp then [' '] else []) ++ ('{' :: (name ++ ['}'])))) ++ Z) := by
    simp
  rw [h2]
  exact stripLit_backslash_mismatch hne _ _

theorem stepAuthor_at_begin {name Z : List Char} :
    stepAuthor (beginMarker name ++ Z) = none := by
  have hs : stripLit authorLit (beginMarker name ++ Z) = none := by
    rw [(by decide : authorLit
      = '\\' :: 'a' :: (['u', 't', 'h', 'o', 'r', '{'] : List Char))]
    exact stripLit_at_begin (by decide)
  simp only [stepAuthor, hs]

theorem stepAuthor_at_end {sp : Bool} {name Z : List Char} :
    stepAuthor (endMarker sp name ++ Z) = none := by
  have hs : stripLit authorLit (endMarker sp name ++ Z) = none := by
    rw [(by decide : authorLit
      = '\\' :: 'a' :: (['u', 't', 'h', 'o', 'r', '{'] : List Char))]
    exact stripLit_at_end (by decide)
  simp only [stepAuthor, hs]

theorem stepIfFileExists_at_begin {name Z : List Char} :
    stepIfFileExists (beginMarker name ++ Z) = none := by
  have hs : stripLit ifFileLit (beginMarker name ++ Z) = none := by
    rw [(by decide : ifFileLit = '\\' :: 'I' ::
      (['f', 'F', 'i', 'l', 'e', 'E', 'x', 'i', 's', 't', 's', '{'] : List Char))]
    exact stripLit_at_begin (by decide)
  simp only [stepIfFileExists, hs]

theorem stepIfFileExists_at_end {sp : Bool} {name Z : List Char} :
    stepIfFileExists (endMarker sp name ++ Z) = none := by
  have hs : stripLit ifFileLit (endMarker sp name ++ Z) = none := by
    rw [(by decide : ifFileLit = '\\' :: 'I' ::
      (['f', 'F', 'i', 'l', 'e', 'E', 'x', 'i', 's', 't', 's', '{'] : List Char))]
    exact stripLit_at_end (by decide)
  simp only [stepIfFileExists, hs]

theorem stepHyp_at_begin {name Z : List Char} :
    stepHyp (beginMarker name ++ Z) = none := by
  have hs : stripLit ('\\' :: ("hyp").toList ++ ['{', '}'])
      (beginMarker name ++ Z) = none := by
    rw [(by decide : ('\\' :: ("hyp").toList ++ ['{', '}'])
      = '\\' :: 'h' :: (['y', 'p', '{', '}'] : List Char))]
    exact stripLit_at_begin (by decide)
  simp only [stepHyp, hs]

theorem stepHyp_at_end {sp : Bool} {name Z : List Char} :
    stepHyp (endMarker sp name ++ Z) = none := by
  have hs : stripLit ('\\' :: ("hyp").toList ++ ['{', '}'])
      (endMarker sp name ++ Z) = none := by
    rw [(by decide : ('\\' :: ("hyp").toList ++ ['{', '}'])
      = '\\' :: 'h' :: (['y', 'p', '{', '}'] : List Char))]
    exact stripLit_at_end (by decide)
  simp only [stepHyp, hs]

theorem stepAccent_at_begin {name Z : List Char} :
    stepAccent (beginMarker name ++ Z) = none := by
  have hs : stripLit ['\\', Char.ofNat 39, 'e'] (beginMarker name ++ Z) = none := by
    rw [(by decide : (['\\', Char.ofNat 39, 'e'] : List Char)
      = '\\' :: (Char.ofNat 39) :: (['e'] : List Char))]
    exact stripLit_at_begin (by decide)
  simp only [stepAccent, hs]

theorem stepAccent_at_end {sp : Bool} {name Z : List Char} :
    stepAccent (endMarker sp name ++ Z) = none := by
  have hs : stripLit ['\\', Char.ofNat 39, 'e'] (endMarker sp name ++ Z) = none := by
    rw [(by decide : (['\\', Char.ofNat 39, 'e'] : List Char)
      = '\\' :: (Char.ofNat 39) :: (['e'] : List Char))]
    exact stripLit_at_end (by decide)
  simp only [stepAccent, hs]

theorem stripLit_beginMarker_ne {com name : List Char} {Z : List Char}
    (hcom : com.all isAsciiLetter = true) (hname : name.all isAsciiLetter = true)
    (hne : name ≠ com) :
    stripLit (beginMarker com) (beginMarker name ++ Z) = none := by
  rw [beginMarker_eq com, beginMarker_eq name]
  have h2 : (['\\', 'b', 'e', 'g', 'i', 'n', '{'] ++ (name ++ ['}'])) ++ Z
      = ['\\', 'b', 'e', 'g', 'i', 'n', '{'] ++ (name ++ '}' :: Z) := by simp
  rw [h2, stripLit_append_common]
  exact stripLit_letters_brace hcom hname hne Z

theorem stripLit_beginMarker_at_end {com : List Char} {sp : Bool}
    {name Z : List Char} :
    stripLit (beginMarker com) (endMarker sp name ++ Z) = none := by
  rw [beginMarker_cons com]
  have h1 : '\\' :: (['b', 'e', 'g', 'i', 'n', '{'] ++ (com ++ ['}']))
      = '\\' :: 'b' :: (['e', 'g', 'i', 'n', '{'] ++ (com ++ ['}'])) := by simp
  rw [h1]
  exact stripLit_at_end (by decide)

theorem stepOpener_at_begin {com name Z : List Char}
    (hcom : com.all isAsciiLetter = true) (hname : name.all isAsciiLetter = true)
    (hne : name ≠ com) : stepOpener com (beginMarker name ++ Z) = none := by
  simp only [stepOpener, stripLit_beginMarker_ne hcom hname hne]

theorem stepOpener_at_end {com : List Char} {sp : Bool} {name Z : List Char} :
    stepOpener com (endMarker sp name ++ Z) = none := by
  simp only [stepOpener, stripLit_beginMarker_at_end]

theorem stepPreserve_at_begin_ne {env name Z : List Char}
    (henv : env.all isAsciiLetter = true) (hname : name.all isAsciiLetter = true)
    (hne : name ≠ env) : stepPreserve env (beginMarker name ++ Z) = none := by
  simp only [stepPreserve, stripLit_beginMarker_ne henv hname hne]

theorem stepPreserve_at_end {env : List Char} {sp : Bool} {name Z : List Char} :
    stepPreserve env (endMarker sp name ++ Z) = none := by
  simp only [stepPreserve, stripLit_beginMarker_at_end]

/-! ### The acting stages at their markers -/

theorem findEnvEnd_skip {env : List Char} : ∀ {body : List Char}
    (rest : List Char), '\\' ∉ body →
    findEnvEnd env (body ++ rest)
      = (findEnvEnd env rest).map (fun q => (body ++ q.1, q.2)) := by
  intro body
  induction body with
  | nil =>
    intro rest _
    cases hf : findEnvEnd env rest with
    | none => simp [hf]
    | some q => simp [hf]
  | cons c cs ih =>
    intro rest h
    have hc : c ≠ '\\' := by
      intro hh; exact h (by rw [← hh]; exact List.mem_cons_self c cs)
    have hs1 : stripLit (endMarker true env) (c :: (cs ++ rest)) = none := by
      rw [endMarker_cons]
      exact stripLit_none_head hc
    have hs2 : stripLit (endMarker false env) (c :: (cs ++ rest)) = none := by
      rw [endMarker_cons]
      exact stripLit_none_head hc
    rw [List.cons_append, findEnvEnd, hs1, hs2,
      ih rest (fun hm => h (List.mem_cons_of_mem c hm))]
    cases hf : findEnvEnd env rest with
    | none => simp [hf]
    | some q => simp [hf]

theorem findEnvEnd_at_marker {env : List Char} {sp : Bool} (s2 : List Char) :
    findEnvEnd env (endMarker sp env ++ s2) = some ([], s2) := by
  cases sp with
  | true =>
    have hs : stripLit (endMarker true env) (endMarker true env ++ s2) = some s2 :=
      stripLit_self _ _
    have h1 : endMarker true env ++ s2
        = '\\' :: ((['e', 'n', 'd'] ++
          ((if true then [' '] else []) ++ ('{' :: (env ++ ['}'])))) ++ s2) := by
      rw [endMarker_cons]
      simp
    rw [h1] at hs
    rw [h1, findEnvEnd, hs]
  | false =>
    have hs1 : stripLit (endMarker true env) (endMarker false env ++ s2) = none := by
      rw [endMarker_eq true, endMarker_eq false]
      have h2 : (['\\', 'e', 'n', 'd'] ++
          ((if false then [' '] else []) ++ ('{' :: (env ++ ['}'])))) ++ s2
          = ['\\', 'e', 'n', 'd'] ++ ('{' :: ((env ++ ['}']) ++ s2)) := by simp
      have h3 : ['\\', 'e', 'n', 'd'] ++
          ((if true then [' '] else []) ++ ('{' :: (env ++ ['}'])))
          = ['\\', 'e', 'n', 'd'] ++ (' ' :: ('{' :: (env ++ ['}']))) := by simp
      rw [h2, h3, stripLit_append_common]
      exact stripLit_none_head (by decide)
    have hs2 : stripLit (endMarker false env) (endMarker false env ++ s2) = some s2 :=
      stripLit_self _ _
    have h1 : endMarker false env ++ s2
        = '\\' :: ((['e', 'n', 'd'] ++
          ((if false then [' '] else []) ++ ('{' :: (env ++ ['}'])))) ++ s2) := by
      rw [endMarker_cons]
      simp
    rw [h1] at hs1 hs2
    rw [h1, findEnvEnd, hs1, hs2]

theorem stepPreserve_acts {env body s2 : List Char} {sp : Bool}
    (hbody : '\\' ∉ body) :
    stepPreserve env (beginMarker env ++ (body ++ (endMarker sp env ++ s2)))
      = some (body, s2) := by
  have hs : stripLit (beginMarker env)
      (beginMarker env ++ (body ++ (endMarker sp env ++ s2)))
      = some (body ++ (endMarker sp env ++ s2)) := stripLit_self _ _
  simp only [stepPreserve, hs]
  rw [findEnvEnd_skip _ hbody, findEnvEnd_at_marker]
  simp

theorem matchEndCI_none_head {name : List Char} {c : Char} {r : List Char}
    (hc : c ≠ '\\') : matchEndCI name (c :: r) = none := by
  have hs : stripCI ('\\' :: ("end").toList) (c :: r) = none := by
    apply stripCI_none_head
    rw [lowerChar_backslash]
    exact fun hh => (lowerChar_ne_backslash hc) hh.symm
  simp only [matchEndCI, hs]

theorem findEnvEndCI_skip {name : List Char} : ∀ {body : List Char}
    (rest : List Char), '\\' ∉ body →
    findEnvEndCI name (body ++ rest) = findEnvEndCI name rest := by
  intro body
  induction body with
  | nil => intro rest _; rfl
  | cons c cs ih =>
    intro rest h
    have hc : c ≠ '\\' := by
      intro hh; exact h (by rw [← hh]; exact List.mem_cons_self c cs)
    rw [List.cons_append, findEnvEndCI, matchEndCI_none_head hc,
      ih rest (fun hm => h (List.mem_cons_of_mem c hm))]

theorem matchEndCI_marker {nameB nameE : List Char} {sp : Bool} (s2 : List Char)
    (hmap : nameB.map lowerChar = nameE.map lowerChar) :
    matchEndCI nameB (endMarker sp nameE ++ s2) = some s2 := by
  have hP : ('\\' :: ("end").toList) = (['\\', 'e', 'n', 'd'] : List Char) := by
    decide
  have hform : endMarker sp nameE ++ s2 = ['\\', 'e', 'n', 'd'] ++
      (((if sp then [' '] else []) ++ ('{' :: (nameE ++ ['}']))) ++ s2) := by
    rw [endMarker_eq]
    simp
  have hs : stripCI ('\\' :: ("end").toList) (endMarker sp nameE ++ s2)
      = some (((if sp then [' '] else []) ++ ('{' :: (nameE ++ ['}']))) ++ s2) := by
    rw [hP, hform]
    exact stripCI_self _ _
  simp only [matchEndCI, hs]
  have hdo : dropOptChar ' '
      (((if sp then [' '] else []) ++ ('{' :: (nameE ++ ['}']))) ++ s2)
      = '{' :: ((nameE ++ ['}']) ++ s2) := by
    cases sp with
    | true =>
      have h1 : (((if true then [' '] else []) ++ ('{' :: (nameE ++ ['}']))) ++ s2)
          = ' ' :: ('{' :: ((nameE ++ ['}']) ++ s2)) := by simp
      rw [h1, dropOptChar_pos]
    | false =>
      have h1 : (((if false then [' '] else []) ++ ('{' :: (nameE ++ ['}']))) ++ s2)
          = '{' :: ((nameE ++ ['}']) ++ s2) := by simp
      rw [h1, dropOptChar_neg (by decide)]
  rw [hdo]
  have hname : stripCI nameB (nameE ++ ('}' :: s2)) = some ('}' :: s2) :=
    stripCI_of_map_eq hmap _
  simp [matchBraceNameCI, hname]

theorem findEnvEndCI_at_marker {nameB nameE : List Char} {sp : Bool}
    (s2 : List Char) (hmap : nameB.map lowerChar = nameE.map lowerChar) :
    findEnvEndCI nameB (endMarker sp nameE ++ s2) = some s2 := by
  have hm : matchEndCI nameB (endMarker sp nameE ++ s2) = some s2 :=
    matchEndCI_marker s2 hmap
  have h1 : endMarker sp nameE ++ s2
      = '\\' :: ((['e', 'n', 'd'] ++
        ((if sp then [' '] else []) ++ ('{' :: (nameE ++ ['}'])))) ++ s2) := by
    rw [endMarker_cons]
    simp
  rw [h1] at hm
  rw [h1, findEnvEndCI, hm]

theorem stepDeleteEnv_acts {nameB nameE body s2 : List Char} {sp : Bool}
    (hBl : nameB.all isAsciiLetter = true) (hBne : nameB ≠ [])
    (hmap : nameB.map lowerChar = nameE.map lowerChar) (hbody : '\\' ∉ body) :
    stepDeleteEnv (beginMarker nameB ++ (body ++ (endMarker sp nameE ++ s2)))
      = some ([], s2) := by
  have hP : ('\\' :: ("begin").toList ++ ['{'])
      = (['\\', 'b', 'e', 'g', 'i', 'n', '{'] : List Char) := by decide
  have hform : beginMarker nameB ++ (body ++ (endMarker sp nameE ++ s2))
      = ['\\', 'b', 'e', 'g', 'i', 'n', '{'] ++
        (nameB ++ ('}' :: (body ++ (endMarker sp nameE ++ s2)))) := by
    rw [beginMarker_eq]
    simp
  have hs : stripCI ('\\' :: ("begin").toList ++ ['{'])
      (beginMarker nameB ++ (body ++ (endMarker sp nameE ++ s2)))
      = some (nameB ++ ('}' :: (body ++ (endMarker sp nameE ++ s2)))) := by
    rw [hP, hform]
    exact stripCI_self _ _
  have htl : takeLetters (nameB ++ ('}' :: (body ++ (endMarker sp nameE ++ s2))))
      = (nameB, '}' :: (body ++ (endMarker sp nameE ++ s2))) :=
    takeLetters_of hBl _ (by decide)
  have hfe : findEnvEndCI nameB (body ++ (endMarker sp nameE ++ s2)) = some s2 := by
    rw [findEnvEndCI_skip _ hbody, findEnvEndCI_at_marker s2 hmap]
  rw [hP] at hs
  simp [stepDeleteEnv, hs, htl, hBne, hfe]

/-! ### Assembling the environment claims -/

theorem plain_not_mem {t : List Char} (h : isPlain t = true) {c : Char}
    (hc : plainChar c = false) : c ∉ t := by
  intro hm
  have h2 := (List.all_eq_true.mp h) c hm
  rw [h2] at hc
  cases hc

theorem not_mem_envText {c : Char} {nameB nameE s1 body s2 : List Char}
    {sp : Bool}
    (hBl : nameB.all isAsciiLetter = true) (hEl : nameE.all isAsciiLetter = true)
    (hc : isAsciiLetter c = false) (h1 : c ≠ '\\') (h3 : c ≠ '{') (h4 : c ≠ '}')
    (h5 : c ≠ ' ') (hs1 : c ∉ s1) (hbody : c ∉ body) (hs2 : c ∉ s2) :
    c ∉ s1 ++ (beginMarker nameB ++ (body ++ (endMarker sp nameE ++ s2))) := by
  intro hm
  rcases List.mem_append.mp hm with h | h
  · exact hs1 h
  rcases List.mem_append.mp h with h | h
  · exact not_mem_beginMarker hBl hc h1 h3 h4 h
  rcases List.mem_append.mp h with h | h
  · exact hbody h
  rcases List.mem_append.mp h with h | h
  · exact not_mem_endMarker hEl hc h1 h3 h4 h5 h
  · exact hs2 h

theorem foldl_reSub_id {α : Type}
    (f : α → List Char → Option (List Char × List Char)) {u : List Char} :
    ∀ (l : List α), (∀ x ∈ l, reSub (f x) u = u) →
    l.foldl (fun t x => reSub (f x) t) u = u
  | [], _ => rfl
  | a :: l2, h => by
    rw [List.foldl_cons, h a (List.mem_cons_self a l2)]
    exact foldl_reSub_id f l2 (fun x hx => h x (List.mem_cons_of_mem a hx))

theorem openers_letters : ∀ com ∈ openers, com.all isAsciiLetter = true := by
  decide

theorem to_preserve_letters : ∀ env ∈ to_preserve, env.all isAsciiLetter = true := by
  decide

/-- C1 (corrected): for a text `s1 ++ \begin\x7bnameB\x7d ++ body ++
\end\x7bnameE\x7d ++ s2` whose surrounding parts and body are plain (no
`%`, `$`, `|`, backslash, braces or brackets), where `nameB` is a nonempty
letters-only environment name equal to `nameE` up to ASCII case, and the name
is none of the opener or quote-like environments, `detex` deletes the two
markers and the whole enclosed content: the result is exactly the
whitespace-normalization of `s1 ++ s2`.  (The unrestricted claim is false:
with nested same-name environments the non-greedy pairing leaves content
behind, see the counterexample.) -/
theorem detex_env_deletion_amended {nameB nameE s1 body s2 : List Char}
    {sp : Bool}
    (hBl : nameB.all isAsciiLetter = true) (hBne : nameB ≠ [])
    (hEl : nameE.all isAsciiLetter = true)
    (hmap : nameB.map lowerChar = nameE.map lowerChar)
    (hop : nameB ∉ openers) (hpr : nameB ∉ to_preserve)
    (hp1 : isPlain s1 = true) (hpb : isPlain body = true)
    (hp2 : isPlain s2 = true) :
    detex (s1 ++ (beginMarker nameB ++ (body ++ (endMarker sp nameE ++ s2))))
      = reSub stepTripleNL (s1 ++ s2) := by
  have hns1 : '\\' ∉ s1 := plain_not_mem hp1 (by decide)
  have hnb : '\\' ∉ body := plain_not_mem hpb (by decide)
  have hns2 : '\\' ∉ s2 := plain_not_mem hp2 (by decide)
  have envid : ∀ step : List Char → Option (List Char × List Char),
      StepNil step → (∀ c r, c ≠ '\\' → step (c :: r) = none) →
      step (beginMarker nameB ++ (body ++ (endMarker sp nameE ++ s2))) = none →
      step (endMarker sp nameE ++ s2) = none →
      reSub step (s1 ++ (beginMarker nameB ++ (body ++ (endMarker sp nameE ++ s2))))
        = s1 ++ (beginMarker nameB ++ (body ++ (endMarker sp nameE ++ s2))) :=
    fun step h0 hA hB hE => reSub_id_of_noStart step
      (noStart_envText h0 hA hBl hEl hns1 hnb hns2 hB hE)
  have e1 : reSub stepComment
      (s1 ++ (beginMarker nameB ++ (body ++ (endMarker sp nameE ++ s2))))
      = s1 ++ (beginMarker nameB ++ (body ++ (endMarker sp nameE ++ s2))) := by
    apply reSub_id_of_noStart
    apply noStart_of_heads stepComment_nil
    intro c r hc
    apply stepComment_none
    intro hh
    subst hh
    exact not_mem_envText hBl hEl (by decide) (by decide) (by decide) (by decide)
      (by decide) (plain_not_mem hp1 (by decide)) (plain_not_mem hpb (by decide))
      (plain_not_mem hp2 (by decide)) hc
  have e2 : reSub stepSymbols
      (s1 ++ (beginMarker nameB ++ (body ++ (endMarker sp nameE ++ s2))))
      = s1 ++ (beginMarker nameB ++ (body ++ (endMarker sp nameE ++ s2))) := by
    apply reSub_id_of_noStart
    apply noStart_of_heads stepSymbols_nil
    intro c r hc
    apply stepSymbols_none
    · intro hh
      subst hh
      exact not_mem_envText hBl hEl (by decide) (by decide) (by decide) (by decide)
        (by decide) (plain_not_mem hp1 (by decide)) (plain_not_mem hpb (by decide))
        (plain_not_mem hp2 (by decide)) hc
    · intro hh
      subst hh
      exact not_mem_envText hBl hEl (by decide) (by decide) (by decide) (by decide)
        (by decide) (plain_not_mem hp1 (by decide)) (plain_not_mem hpb (by decide))
        (plain_not_mem hp2 (by decide)) hc
  have e3 := envid stepAuthor stepAuthor_nil (fun c r h => stepAuthor_none h)
    stepAuthor_at_begin stepAuthor_at_end
  have e4 := envid stepIfFileExists stepIfFileExists_nil
    (fun c r h => stepIfFileExists_none h)
    stepIfFileExists_at_begin stepIfFileExists_at_end
  have e5 := envid stepHyp stepHyp_nil (fun c r h => stepHyp_none h)
    stepHyp_at_begin stepHyp_at_end
  have e6 := envid stepAccent stepAccent_nil (fun c r h => stepAccent_none h)
    stepAccent_at_begin stepAccent_at_end
  have e7 : openers.foldl (fun t com => reSub (stepOpener com) t)
      (s1 ++ (beginMarker nameB ++ (body ++ (endMarker sp nameE ++ s2))))
      = s1 ++ (beginMarker nameB ++ (body ++ (endMarker sp nameE ++ s2))) := by
    apply foldl_reSub_id
    intro com hcom
    exact envid (stepOpener com) (stepOpener_nil com)
      (fun c r h => stepOpener_none com h)
      (stepOpener_at_begin (openers_letters com hcom) hBl
        (fun hh => hop (hh ▸ hcom)))
      stepOpener_at_end
  have e8 : to_preserve.foldl (fun t env => reSub (stepPreserve env) t)
      (s1 ++ (beginMarker nameB ++ (body ++ (endMarker sp nameE ++ s2))))
      = s1 ++ (beginMarker nameB ++ (body ++ (endMarker sp nameE ++ s2))) := by
    apply foldl_reSub_id
    intro env henv
    exact envid (stepPreserve env) (stepPreserve_nil env)
      (fun c r h => stepPreserve_none env h)
      (stepPreserve_at_begin_ne (to_preserve_letters env henv) hBl
        (fun hh => hpr (hh ▸ henv)))
      stepPreserve_at_end
  have e9 : reSub stepDeleteEnv
      (s1 ++ (beginMarker nameB ++ (body ++ (endMarker sp nameE ++ s2))))
      = s1 ++ s2 := by
    have hpre : ∀ n, n < s1.length → stepDeleteEnv
        (s1.drop n ++ (beginMarker nameB ++ (body ++ (endMarker sp nameE ++ s2))))
        = none :=
      stepNone_on_prefix _
        (fun c r hc => stepDeleteEnv_none (fun hh => hns1 (hh ▸ hc)))
    rw [reSub_append stepDeleteEnv hpre]
    congr 1
    have hact : stepDeleteEnv
        (beginMarker nameB ++ (body ++ (endMarker sp nameE ++ s2)))
        = some ([], s2) := stepDeleteEnv_acts hBl hBne hmap hnb
    have hconsM : beginMarker nameB ++ (body ++ (endMarker sp nameE ++ s2))
        = '\\' :: ((['b', 'e', 'g', 'i', 'n', '{'] ++ (nameB ++ ['}'])) ++
          (body ++ (endMarker sp nameE ++ s2))) := by
      rw [beginMarker_cons]
      simp
    rw [hconsM] at hact
    rw [hconsM, reSub_cons_match stepDeleteEnv stepDeleteEnv_shrinks hact]
    have hid2 : reSub stepDeleteEnv s2 = s2 :=
      reSub_id_of_noStart _ (noStart_of_heads stepDeleteEnv_nil
        (fun c r hc => stepDeleteEnv_none (fun hh => hns2 (hh ▸ hc))))
    simp [hid2]
  have hP : '\\' ∉ s1 ++ s2 := fun hm =>
    (List.mem_append.mp hm).elim (fun h => hns1 h) (fun h => hns2 h)
  have bsid : ∀ step : List Char → Option (List Char × List Char),
      StepNil step → (∀ c r, c ≠ '\\' → step (c :: r) = none) →
      reSub step (s1 ++ s2) = s1 ++ s2 := fun step h0 hA =>
    reSub_id_of_noStart step (noStart_of_heads h0
      (fun c r hc => hA c r (fun hh => hP (hh ▸ hc))))
  have e10 := bsid stepGb4e stepGb4e_nil (fun c r h => stepGb4e_none h)
  have e11 : to_replace.foldl (fun t com => reSub (stepInline com) t)
      (s1 ++ s2) = s1 ++ s2 :=
    foldl_reSub_id _ _ (fun com _ => bsid (stepInline com) (stepInline_nil com)
      (fun c r h => stepInline_none com h))
  have e12 : to_replace_line.foldl (fun t com => reSub (stepLineCmd com) t)
      (s1 ++ s2) = s1 ++ s2 :=
    foldl_reSub_id _ _ (fun com _ => bsid (stepLineCmd com) (stepLineCmd_nil com)
      (fun c r h => stepLineCmd_none com h))
  have e13 := bsid stepSection stepSection_nil (fun c r h => stepSection_none h)
  have e14 := bsid stepShortTitle stepShortTitle_nil
    (fun c r h => stepShortTitle_none h)
  have e15 : to_delete.foldl (fun t w => reSub (stepCrossref w) t)
      (s1 ++ s2) = s1 ++ s2 :=
    foldl_reSub_id _ _ (fun w _ => reSub_id_of_noStart _
      (fun n => stepCrossref_none_of_no_backslash
        (fun hm => hP (List.drop_subset n _ hm))))
  have e16 := bsid stepCmdArgs stepCmdArgs_nil (fun c r h => stepCmdArgs_none h)
  have e17 := bsid stepCmdBare stepCmdBare_nil (fun c r h => stepCmdBare_none h)
  have e18 : reSub stepBraceNL (s1 ++ s2) = s1 ++ s2 :=
    reSub_id_of_noStart _ (fun n => stepBraceNL_none_of_no_brace
      (fun hm => (List.mem_append.mp (List.drop_subset n _ hm)).elim
        (fun h => plain_not_mem hp1 (by decide) h)
        (fun h => plain_not_mem hp2 (by decide) h))
      (fun hm => (List.mem_append.mp (List.drop_subset n _ hm)).elim
        (fun h => plain_not_mem hp1 (by decide) h)
        (fun h => plain_not_mem hp2 (by decide) h))
      (fun hm => (List.mem_append.mp (List.drop_subset n _ hm)).elim
        (fun h => plain_not_mem hp1 (by decide) h)
        (fun h => plain_not_mem hp2 (by decide) h)))
  simp only [detex]
  rw [e1, e2, e3, e4, e5, e6, e7, e8, e9, e10, e11, e12, e13, e14, e15, e16,
    e17, e18]

/-- Witness for C1 (corrected) at a concrete input: the environment
`FigURE`/`figure` (mixed case) with plain surroundings. -/
theorem detex_env_deletion_amended_witness :
    (("FigURE").toList.all isAsciiLetter = true ∧ ("FigURE").toList ≠ [] ∧
      ("figure").toList.all isAsciiLetter = true ∧
      ("FigURE").toList.map lowerChar = ("figure").toList.map lowerChar ∧
      ("FigURE").toList ∉ openers ∧ ("FigURE").toList ∉ to_preserve ∧
      isPlain (("A ").toList) = true ∧ isPlain (("junk").toList) = true ∧
      isPlain (("B").toList) = true) ∧
    detex (("A ").toList ++ (beginMarker (("FigURE").toList) ++
        ((("junk").toList) ++ (endMarker true (("figure").toList) ++ ("B").toList))))
      = reSub stepTripleNL (("A ").toList ++ ("B").toList) :=
  ⟨⟨by decide, by decide, by decide, by decide, by decide, by decide, by decide,
    by decide, by decide⟩,
   detex_env_deletion_amended (by decide) (by decide) (by decide) (by decide)
     (by decide) (by decide) (by decide) (by decide) (by decide)⟩

theorem to_preserve_not_opener : ∀ e ∈ to_preserve, e ∉ openers := by
  decide

/-- C2 (corrected): for a text `s1 ++ \begin\x7benv\x7d ++ body ++
\end\x7benv\x7d ++ s2` with `env` one of the quote-like environments
(`quote`, `quotation`, exact case as the source's literal patterns require)
and plain surroundings and body, `detex` keeps the inner text and removes
both markers: the result is exactly the whitespace-normalization of
`s1 ++ body ++ s2`, so the preservation runs before the generic environment
deletion would consume it.  (The unrestricted claim is false: a preceding
comment marker can swallow the begin marker and the generic deletion then
eats the quoted content, see the counterexample.) -/
theorem detex_quote_preserved_amended {env s1 body s2 : List Char} {sp : Bool}
    (henv : env ∈ to_preserve)
    (hp1 : isPlain s1 = true) (hpb : isPlain body = true)
    (hp2 : isPlain s2 = true) :
    detex (s1 ++ (beginMarker env ++ (body ++ (endMarker sp env ++ s2))))
      = reSub stepTripleNL (s1 ++ (body ++ s2)) := by
  have henvl : env.all isAsciiLetter = true := to_preserve_letters env henv
  have hns1 : '\\' ∉ s1 := plain_not_mem hp1 (by decide)
  have hnb : '\\' ∉ body := plain_not_mem hpb (by decide)
  have hns2 : '\\' ∉ s2 := plain_not_mem hp2 (by decide)
  have envid : ∀ step : List Char → Option (List Char × List Char),
      StepNil step → (∀ c r, c ≠ '\\' → step (c :: r) = none) →
      step (beginMarker env ++ (body ++ (endMarker sp env ++ s2))) = none →
      step (endMarker sp env ++ s2) = none →
      reSub step (s1 ++ (beginMarker env ++ (body ++ (endMarker sp env ++ s2))))
        = s1 ++ (beginMarker env ++ (body ++ (endMarker sp env ++ s2))) :=
    fun step h0 hA hB hE => reSub_id_of_noStart step
      (noStart_envText h0 hA henvl henvl hns1 hnb hns2 hB hE)
  have e1 : reSub stepComment
      (s1 ++ (beginMarker env ++ (body ++ (endMarker sp env ++ s2))))
      = s1 ++ (beginMarker env ++ (body ++ (endMarker sp env ++ s2))) := by
    apply reSub_id_of_noStart
    apply noStart_of_heads stepComment_nil
    intro c r hc
    apply stepComment_none
    intro hh
    subst hh
    exact not_mem_envText henvl henvl (by decide) (by decide) (by decide)
      (by decide) (by decide) (plain_not_mem hp1 (by decide))
      (plain_not_mem hpb (by decide)) (plain_not_mem hp2 (by decide)) hc
  have e2 : reSub stepSymbols
      (s1 ++ (beginMarker env ++ (body ++ (endMarker sp env ++ s2))))
      = s1 ++ (beginMarker env ++ (body ++ (endMarker sp env ++ s2))) := by
    apply reSub_id_of_noStart
    apply noStart_of_heads stepSymbols_nil
    intro c r hc
    apply stepSymbols_none
    · intro hh
      subst hh
      exact not_mem_envText henvl henvl (by decide) (by decide) (by decide)
        (by decide) (by decide) (plain_not_mem hp1 (by decide))
        (plain_not_mem hpb (by decide)) (plain_not_mem hp2 (by decide)) hc
    · intro hh
      subst hh
      exact not_mem_envText henvl henvl (by decide) (by decide) (by decide)
        (by decide) (by decide) (plain_not_mem hp1 (by decide))
        (plain_not_mem hpb (by decide)) (plain_not_mem hp2 (by decide)) hc
  have e3 := envid stepAuthor stepAuthor_nil (fun c r h => stepAuthor_none h)
    stepAuthor_at_begin stepAuthor_at_end
  have e4 := envid stepIfFileExists stepIfFileExists_nil
    (fun c r h => stepIfFileExists_none h)
    stepIfFileExists_at_begin stepIfFileExists_at_end
  have e5 := envid stepHyp stepHyp_nil (fun c r h => stepHyp_none h)
    stepHyp_at_begin stepHyp_at_end
  have e6 := envid stepAccent stepAccent_nil (fun c r h => stepAccent_none h)
    stepAccent_at_begin stepAccent_at_end
  have e7 : openers.foldl (fun t com => reSub (stepOpener com) t)
      (s1 ++ (beginMarker env ++ (body ++ (endMarker sp env ++ s2))))
      = s1 ++ (beginMarker env ++ (body ++ (endMarker sp env ++ s2))) := by
    apply foldl_reSub_id
    intro com hcom
    exact envid (stepOpener com) (stepOpener_nil com)
      (fun c r h => stepOpener_none com h)
      (stepOpener_at_begin (openers_letters com hcom) henvl
        (fun hh => to_preserve_not_opener env henv (hh ▸ hcom)))
      stepOpener_at_end
  have hP : '\\' ∉ s1 ++ (body ++ s2) := by
    intro hm
    rcases List.mem_append.mp hm with h | h
    · exact hns1 h
    rcases List.mem_append.mp h with h | h
    · exact hnb h
    · exact hns2 h
  have bsid : ∀ step : List Char → Option (List Char × List Char),
      StepNil step → (∀ c r, c ≠ '\\' → step (c :: r) = none) →
      reSub step (s1 ++ (body ++ s2)) = s1 ++ (body ++ s2) := fun step h0 hA =>
    reSub_id_of_noStart step (noStart_of_heads h0
      (fun c r hc => hA c r (fun hh => hP (hh ▸ hc))))
  have eact : reSub (stepPreserve env)
      (s1 ++ (beginMarker env ++ (body ++ (endMarker sp env ++ s2))))
      = s1 ++ (body ++ s2) := by
    have hpre : ∀ n, n < s1.length → stepPreserve env
        (s1.drop n ++ (beginMarker env ++ (body ++ (endMarker sp env ++ s2))))
        = none :=
      stepNone_on_prefix _
        (fun c r hc => stepPreserve_none env (fun hh => hns1 (hh ▸ hc)))
    rw [reSub_append _ hpre]
    congr 1
    have hact : stepPreserve env
        (beginMarker env ++ (body ++ (endMarker sp env ++ s2)))
        = some (body, s2) := stepPreserve_acts hnb
    have hconsM : beginMarker env ++ (body ++ (endMarker sp env ++ s2))
        = '\\' :: ((['b', 'e', 'g', 'i', 'n', '{'] ++ (env ++ ['}'])) ++
          (body ++ (endMarker sp env ++ s2))) := by
      rw [beginMarker_cons]
      simp
    rw [hconsM] at hact
    rw [hconsM, reSub_cons_match (stepPreserve env) (stepPreserve_shrinks env) hact]
    have hid2 : reSub (stepPreserve env) s2 = s2 :=
      reSub_id_of_noStart _ (noStart_of_heads (stepPreserve_nil env)
        (fun c r hc => stepPreserve_none env (fun hh => hns2 (hh ▸ hc))))
    simp [hid2]
  have e8 : to_preserve.foldl (fun t e => reSub (stepPreserve e) t)
      (s1 ++ (beginMarker env ++ (body ++ (endMarker sp env ++ s2))))
      = s1 ++ (body ++ s2) := by
    have hcase : env = ("quote").toList ∨ env = ("quotation").toList := by
      simpa [to_preserve] using henv
    simp only [to_preserve, List.foldl_cons, List.foldl_nil]
    rcases hcase with hc | hc
    · subst hc
      rw [eact]
      exact bsid (stepPreserve (("quotation").toList))
        (stepPreserve_nil _) (fun c r h => stepPreserve_none _ h)
    · subst hc
      rw [envid (stepPreserve (("quote").toList)) (stepPreserve_nil _)
        (fun c r h => stepPreserve_none _ h)
        (stepPreserve_at_begin_ne (by decide) henvl (by decide))
        stepPreserve_at_end]
      exact eact
  have e9 := bsid stepDeleteEnv stepDeleteEnv_nil
    (fun c r h => stepDeleteEnv_none h)
  have e10 := bsid stepGb4e stepGb4e_nil (fun c r h => stepGb4e_none h)
  have e11 : to_replace.foldl (fun t com => reSub (stepInline com) t)
      (s1 ++ (body ++ s2)) = s1 ++ (body ++ s2) :=
    foldl_reSub_id _ _ (fun com _ => bsid (stepInline com) (stepInline_nil com)
      (fun c r h => stepInline_none com h))
  have e12 : to_replace_line.foldl (fun t com => reSub (stepLineCmd com) t)
      (s1 ++ (body ++ s2)) = s1 ++ (body ++ s2) :=
    foldl_reSub_id _ _ (fun com _ => bsid (stepLineCmd com) (stepLineCmd_nil com)
      (fun c r h => stepLineCmd_none com h))
  have e13 := bsid stepSection stepSection_nil (fun c r h => stepSection_none h)
  have e14 := bsid stepShortTitle stepShortTitle_nil
    (fun c r h => stepShortTitle_none h)
  have e15 : to_delete.foldl (fun t w => reSub (stepCrossref w) t)
      (s1 ++ (body ++ s2)) = s1 ++ (body ++ s2) :=
    foldl_reSub_id _ _ (fun w _ => reSub_id_of_noStart _
      (fun n => stepCrossref_none_of_no_backslash
        (fun hm => hP (List.drop_subset n _ hm))))
  have e16 := bsid stepCmdArgs stepCmdArgs_nil (fun c r h => stepCmdArgs_none h)
  have e17 := bsid stepCmdBare stepCmdBare_nil (fun c r h => stepCmdBare_none h)
  have hbr : ∀ c : Char, plainChar c = false →
      c ∉ s1 ++ (body ++ s2) := by
    intro c hc hm
    rcases List.mem_append.mp hm with h | h
    · exact plain_not_mem hp1 hc h
    rcases List.mem_append.mp h with h | h
    · exact plain_not_mem hpb hc h
    · exact plain_not_mem hp2 hc h
  have e18 : reSub stepBraceNL (s1 ++ (body ++ s2)) = s1 ++ (body ++ s2) :=
    reSub_id_of_noStart _ (fun n => stepBraceNL_none_of_no_brace
      (fun hm => hbr '{' (by decide) (List.drop_subset n _ hm))
      (fun hm => hbr '}' (by decide) (List.drop_subset n _ hm))
      (fun hm => hbr ']' (by decide) (List.drop_subset n _ hm)))
  simp only [detex]
  rw [e1, e2, e3, e4, e5, e6, e7, e8, e9, e10, e11, e12, e13, e14, e15, e16,
    e17, e18]

/-- Witness for C2 (corrected) at a concrete input: a `quotation`
environment with plain surroundings. -/
theorem detex_quote_preserved_amended_witness :
    (("quotation").toList ∈ to_preserve ∧ isPlain (("A ").toList) = true ∧
      isPlain (("wise words").toList) = true ∧ isPlain ((" B").toList) = true) ∧
    detex (("A ").toList ++ (beginMarker (("quotation").toList) ++
        ((("wise words").toList) ++
          (endMarker false (("quotation").toList) ++ (" B").toList))))
      = reSub stepTripleNL
          (("A ").toList ++ ((("wise words").toList) ++ (" B").toList)) :=
  ⟨⟨by decide, by decide, by decide, by decide⟩,
   detex_quote_preserved_amended (by decide) (by decide) (by decide) (by decide)⟩

theorem detex_plain_id {u : List Char} (hp : isPlain u = true) :
    detex u = reSub stepTripleNL u := by
  have hbs : '\\' ∉ u := plain_not_mem hp (by decide)
  have bsid : ∀ step : List Char → Option (List Char × List Char),
      StepNil step → (∀ c r, c ≠ '\\' → step (c :: r) = none) →
      reSub step u = u := fun step h0 hA =>
    reSub_id_of_noStart step (noStart_of_heads h0
      (fun c r hc => hA c r (fun hh => hbs (hh ▸ hc))))
  have e1 : reSub stepComment u = u :=
    reSub_id_of_noStart _ (noStart_of_heads stepComment_nil
      (fun c r hc => stepComment_none
        (fun hh => plain_not_mem hp (by decide) (hh ▸ hc))))
  have e2 : reSub stepSymbols u = u :=
    reSub_id_of_noStart _ (noStart_of_heads stepSymbols_nil
      (fun c r hc => stepSymbols_none
        (fun hh => plain_not_mem hp (by decide) (hh ▸ hc))
        (fun hh => plain_not_mem hp (by decide) (hh ▸ hc))))
  have e3 := bsid stepAuthor stepAuthor_nil (fun c r h => stepAuthor_none h)
  have e4 := bsid stepIfFileExists stepIfFileExists_nil
    (fun c r h => stepIfFileExists_none h)
  have e5 := bsid stepHyp stepHyp_nil (fun c r h => stepHyp_none h)
  have e6 := bsid stepAccent stepAccent_nil (fun c r h => stepAccent_none h)
  have e7 : openers.foldl (fun t com => reSub (stepOpener com) t) u = u :=
    foldl_reSub_id _ _ (fun com _ => bsid (stepOpener com) (stepOpener_nil com)
      (fun c r h => stepOpener_none com h))
  have e8 : to_preserve.foldl (fun t e => reSub (stepPreserve e) t) u = u :=
    foldl_reSub_id _ _ (fun e _ => bsid (stepPreserve e) (stepPreserve_nil e)
      (fun c r h => stepPreserve_none e h))
  have e9 := bsid stepDeleteEnv stepDeleteEnv_nil
    (fun c r h => stepDeleteEnv_none h)
  have e10 := bsid stepGb4e stepGb4e_nil (fun c r h => stepGb4e_none h)
  have e11 : to_replace.foldl (fun t com => reSub (stepInline com) t) u = u :=
    foldl_reSub_id _ _ (fun com _ => bsid (stepInline com) (stepInline_nil com)
      (fun c r h => stepInline_none com h))
  have e12 : to_replace_line.foldl (fun t com => reSub (stepLineCmd com) t) u = u :=
    foldl_reSub_id _ _ (fun com _ => bsid (stepLineCmd com) (stepLineCmd_nil com)
      (fun c r h => stepLineCmd_none com h))
  have e13 := bsid stepSection stepSection_nil (fun c r h => stepSection_none h)
  have e14 := bsid stepShortTitle stepShortTitle_nil
    (fun c r h => stepShortTitle_none h)
  have e15 : to_delete.foldl (fun t w => reSub (stepCrossref w) t) u = u :=
    foldl_reSub_id _ _ (fun w _ => reSub_id_of_noStart _
      (fun n => stepCrossref_none_of_no_backslash
        (fun hm => hbs (List.drop_subset n _ hm))))
  have e16 := bsid stepCmdArgs stepCmdArgs_nil (fun c r h => stepCmdArgs_none h)
  have e17 := bsid stepCmdBare stepCmdBare_nil (fun c r h => stepCmdBare_none h)
  have e18 : reSub stepBraceNL u = u :=
    reSub_id_of_noStart _ (fun n => stepBraceNL_none_of_no_brace
      (fun hm => plain_not_mem hp (by decide) (List.drop_subset n _ hm))
      (fun hm => plain_not_mem hp (by decide) (List.drop_subset n _ hm))
      (fun hm => plain_not_mem hp (by decide) (List.drop_subset n _ hm)))
  simp only [detex]
  rw [e1, e2, e3, e4, e5, e6, e7, e8, e9, e10, e11, e12, e13, e14, e15, e16,
    e17, e18]

theorem dropWS_scanAux_tripleNL :
    ∀ fuel t, dropWS (scanAux stepTripleNL fuel t) = dropWS t := by
  intro fuel
  induction fuel with
  | zero => intro t; rfl
  | succ f ih =>
    intro t
    cases t with
    | nil => rw [scanAux_nil]
    | cons c r =>
      have hc2 : scanAux stepTripleNL (f + 1) (c :: r)
          = (match stepTripleNL (c :: r) with
            | some p => p.1 ++ scanAux stepTripleNL f p.2
            | none => c :: scanAux stepTripleNL f r) := rfl
      cases hstep : stepTripleNL (c :: r) with
      | none =>
        rw [hc2, hstep]
        simp only [dropWS, List.filter]
        cases hb : !(c = ' ' || c = '\t' || c = '\n') with
        | true =>
          have := ih r
          simp only [dropWS] at this
          rw [this]
        | false =>
          have := ih r
          simp only [dropWS] at this
          rw [this]
      | some p =>
        have hinv : stripLit ['\n', '\n', '\n'] (c :: r) = some p.2 ∧
            p.1 = ['\n'] := by
          cases hs : stripLit ['\n', '\n', '\n'] (c :: r) with
          | none => simp only [stepTripleNL, hs] at hstep; cases hstep
          | some v =>
            simp only [stepTripleNL, hs] at hstep
            cases hstep
            exact ⟨rfl, rfl⟩
        have ht : (c :: r) = ['\n', '\n', '\n'] ++ p.2 := stripLit_eq hinv.1
        rw [hc2, hstep]
        show dropWS (p.1 ++ scanAux stepTripleNL f p.2) = dropWS (c :: r)
        rw [hinv.2, ht]
        simp only [dropWS, List.filter_append]
        have := ih p.2
        simp only [dropWS] at this
        rw [this]
        simp

theorem dropWS_reSub_tripleNL (t : List Char) :
    dropWS (reSub stepTripleNL t) = dropWS t :=
  dropWS_scanAux_tripleNL t.length t

/-- C9 (corrected): a second `detex` pass deletes no further content when the
first pass fully normalized the text to plain characters (no markup
characters left): on such an output `detex` acts only through the final
whitespace-collapsing stage, so the second pass agrees with the first up to
whitespace.  (The unrestricted claim is false: a first pass can manufacture
new markup — for example from `||((` — that a second pass then deletes, see
the counterexample.) -/
theorem detex_near_fixed_point_amended {t : List Char}
    (h : isPlain (detex t) = true) :
    dropWS (detex (detex t)) = dropWS (detex t) := by
  rw [detex_plain_id h]
  exact dropWS_reSub_tripleNL (detex t)

/-- Witness for C9 (corrected) at a concrete input. -/
theorem detex_near_fixed_point_amended_witness :
    isPlain (detex (("hello there").toList)) = true ∧
    dropWS (detex (detex (("hello there").toList)))
      = dropWS (detex (("hello there").toList)) :=
  ⟨by decide, detex_near_fixed_point_amended (by decide)⟩
